import Mathlib

/-!
Shallow embedding of the codex-mcp-server indexing and retrieval engine
(DatabaseManager, LanguageParser, CodeIndexer, SearchEngine,
EmbeddingGenerator), together with theorems settling the specification
claims about it.

Modelling conventions:
* JavaScript strings are modelled as `List Char` (`Str`), so that every
  string operation is structurally recursive and kernel-computable.
* JavaScript `null`/`undefined` string arguments are modelled as
  `Option Str` (`none` plays null); a function that would throw a
  `TypeError` on null returns `none` in an `Option` result.
* Machine angles that are genuinely irrational (SHA-256 hashing,
  `Math.log`, `Math.sin`, `Math.sqrt`, remote embedding vectors) are
  modelled as explicit function parameters: each is a deterministic
  function, exactly as the IEEE-754 library functions are, so every
  theorem quantifying over those parameters covers the real behaviour.
* Timestamps are integers (milliseconds), `Date` comparison is `≤`.
* SQLite rows are records in lists; `AUTOINCREMENT` ids are modelled by
  explicit counters.
-/

/-- JavaScript strings, modelled as lists of characters. -/
abbrev Str := List Char

/-- Converts a Lean string literal to the `Str` model. -/
def str (s : String) : Str := s.data

/-- Whitespace test used to model the JavaScript `\s` class and `trim`. -/
def isWs (c : Char) : Bool := c = ' ' ∨ c = '\t' ∨ c = '\n' ∨ c = '\r' ∨ c = '\x0c' ∨ c = '\x0b'

/-- Model of `String.prototype.trim`. -/
def jsTrim (s : Str) : Str :=
  ((s.dropWhile isWs).reverse.dropWhile isWs).reverse

/-- Model of `str.split('\n')` (keeps empty segments; `''` yields `[[]]`). -/
def splitLines : Str → List Str
  | [] => [[]]
  | c :: rest =>
    if c = '\n' then [] :: splitLines rest
    else match splitLines rest with
      | [] => [[c]]
      | l :: ls => (c :: l) :: ls

/-- Model of `parts.join(sep)` for a one-character separator. -/
def joinWith (sep : Char) : List Str → Str
  | [] => []
  | [l] => l
  | l :: ls => l ++ sep :: joinWith sep ls

/-- Model of `a.includes(b)` (substring containment). -/
def containsSub (s sub : Str) : Bool :=
  match s with
  | [] => sub.isPrefixOf ([] : Str)
  | _ :: rest => sub.isPrefixOf s || containsSub rest sub

/-- Model of `s.split(c)` for a one-character separator (keeps empty parts). -/
def splitOnChar (c : Char) : Str → List Str
  | [] => [[]]
  | d :: rest =>
    if d = c then [] :: splitOnChar c rest
    else match splitOnChar c rest with
      | [] => [[d]]
      | l :: ls => (d :: l) :: ls

/-- Everything before the first occurrence of `sub` (the whole string when
`sub` does not occur); models `s.split(sub)[0]`. -/
def takeUntilSub (sub : Str) : Str → Str
  | [] => []
  | c :: rest =>
    if sub.isPrefixOf (c :: rest) then []
    else c :: takeUntilSub sub rest

/-- ASCII lower-casing, modelling `String.prototype.toLowerCase` on the
code points the engine manipulates. -/
def lowerStr (s : Str) : Str := s.map Char.toLower

/-- Lexicographic boolean comparison on `Str` (models SQLite text ordering
for `ORDER BY path`). -/
def strLeB : Str → Str → Bool
  | [], _ => true
  | _ :: _, [] => false
  | a :: as, b :: bs =>
    if a.toNat < b.toNat then true
    else if b.toNat < a.toNat then false
    else strLeB as bs

/-! ## Persistent store (`src/database/DatabaseManager.ts`)

The four tables of `createTables`, with ids handed out by counters in
insertion order, mirroring `AUTOINCREMENT`.  The `symbols`, `embeddings`
and `dependencies` tables declare `FOREIGN KEY ... ON DELETE CASCADE`,
but the `sqlite3` connection opened in `initialize` never issues
`PRAGMA foreign_keys = ON`, and SQLite leaves foreign-key enforcement
off by default, so at run time a `DELETE FROM files` does not cascade.
`deleteFile` below models the delete as the connection actually executes
it. -/

structure FileRecord where
  id : ℕ
  path : Str
  content : Str
  hash : Str
  size : ℕ
  language : Str
  lastModified : ℤ
  indexedAt : ℤ
  deriving DecidableEq, Repr

structure SymbolRecord where
  id : ℕ
  fileId : ℕ
  name : Str
  type : Str
  startLine : ℕ
  endLine : ℕ
  startColumn : ℤ
  endColumn : ℤ
  definition : Str
  docstring : Option Str
  modifiers : List Str
  deriving DecidableEq, Repr

structure ChunkMetadata where
  language : Str
  startLine : ℕ
  endLine : ℕ
  type : Str
  deriving DecidableEq, Repr

structure EmbeddingRecord where
  id : ℕ
  fileId : ℕ
  symbolId : Option ℕ
  chunkIndex : ℕ
  content : Str
  embedding : List ℚ
  metadata : ChunkMetadata
  deriving DecidableEq

structure DependencyRecord where
  id : ℕ
  sourceFileId : ℕ
  targetFileId : Option ℕ
  importPath : Str
  importType : Str
  isExternal : Bool
  symbols : List Str
  deriving DecidableEq, Repr

structure Database where
  files : List FileRecord
  symbols : List SymbolRecord
  embeddings : List EmbeddingRecord
  dependencies : List DependencyRecord
  nextFileId : ℕ
  nextSymbolId : ℕ
  nextEmbeddingId : ℕ
  nextDependencyId : ℕ
  deriving DecidableEq

/-- The freshly created store: empty tables, ids starting at 1. -/
def Database.empty : Database := ⟨[], [], [], [], 1, 1, 1, 1⟩

namespace DatabaseManager

/-- Fields of `insertFile`'s argument (`Omit<FileRecord,'id'|'indexedAt'>`). -/
structure FileInput where
  path : Str
  content : Str
  hash : Str
  size : ℕ
  language : Str
  lastModified : ℤ
  deriving DecidableEq

/-- Model of `getFile`: `SELECT * FROM files WHERE path = ?` (path is
UNIQUE, so the first matching row is the row). -/
def getFile (db : Database) (path : Str) : Option FileRecord :=
  db.files.find? (fun f => f.path = path)

/-- Model of `getAllFiles`: `SELECT * FROM files ORDER BY path`. -/
def getAllFiles (db : Database) : List FileRecord :=
  db.files.insertionSort (fun a b => strLeB a.path b.path = true)

/-- Model of `insertFile`: upsert keyed on `path`.  An existing row keeps
its id and gets new content/hash/size/language/last_modified and
`indexed_at = CURRENT_TIMESTAMP` (the `now` argument); a new row gets the
next id.  Returns the row id as the source does. -/
def insertFile (db : Database) (now : ℤ) (f : FileInput) : Database × ℕ :=
  match getFile db f.path with
  | some old =>
    ({ db with files := db.files.map (fun r =>
        if r.path = f.path then
          { r with content := f.content, hash := f.hash, size := f.size,
                   language := f.language, lastModified := f.lastModified,
                   indexedAt := now }
        else r) }, old.id)
  | none =>
    ({ db with
        files := db.files ++ [⟨db.nextFileId, f.path, f.content, f.hash,
                               f.size, f.language, f.lastModified, now⟩],
        nextFileId := db.nextFileId + 1 }, db.nextFileId)

/-- Model of `deleteFile`: `DELETE FROM files WHERE path = ?`.  Because the
connection never enables `PRAGMA foreign_keys`, the declared
`ON DELETE CASCADE` clauses are inert and the dependent tables are left
untouched. -/
def deleteFile (db : Database) (path : Str) : Database :=
  { db with files := db.files.filter (fun f => ¬ f.path = path) }

/-- The delete as the schema intends it (`foreign_keys = ON`): the file row
and all rows referencing it go away.  Not what the opened connection
executes; kept to document the declared-but-unenforced cascade. -/
def deleteFileCascading (db : Database) (path : Str) : Database :=
  match getFile db path with
  | none => db
  | some f =>
    { db with
        files := db.files.filter (fun r => ¬ r.path = path),
        symbols := db.symbols.filter (fun s => ¬ s.fileId = f.id),
        embeddings := db.embeddings.filter (fun e => ¬ e.fileId = f.id),
        dependencies := db.dependencies.filter
          (fun d => ¬ d.sourceFileId = f.id ∧ ¬ d.targetFileId = some f.id) }

/-- Fields of `insertSymbol`'s argument. -/
structure SymbolInput where
  fileId : ℕ
  name : Str
  type : Str
  startLine : ℕ
  endLine : ℕ
  startColumn : ℤ
  endColumn : ℤ
  definition : Str
  docstring : Option Str
  modifiers : List Str
  deriving DecidableEq

/-- Model of `insertSymbol`. -/
def insertSymbol (db : Database) (s : SymbolInput) : Database × ℕ :=
  ({ db with
      symbols := db.symbols ++ [⟨db.nextSymbolId, s.fileId, s.name, s.type,
        s.startLine, s.endLine, s.startColumn, s.endColumn, s.definition,
        s.docstring, s.modifiers⟩],
      nextSymbolId := db.nextSymbolId + 1 }, db.nextSymbolId)

/-- Model of `getSymbolsByFile`:
`SELECT * FROM symbols WHERE file_id = ? ORDER BY start_line`. -/
def getSymbolsByFile (db : Database) (fileId : ℕ) : List SymbolRecord :=
  (db.symbols.filter (fun s => s.fileId = fileId)).insertionSort
    (fun a b => a.startLine ≤ b.startLine)

/-- Model of `findSymbolsByName` (optional `type` filter,
`ORDER BY file_id, start_line`). -/
def findSymbolsByName (db : Database) (name : Str) (type : Option Str) :
    List SymbolRecord :=
  (db.symbols.filter (fun s =>
      s.name = name ∧ (∀ t ∈ type, s.type = t))).insertionSort
    (fun a b => a.fileId < b.fileId ∨ (a.fileId = b.fileId ∧ a.startLine ≤ b.startLine))

/-- Model of `clearSymbolsByFile`. -/
def clearSymbolsByFile (db : Database) (fileId : ℕ) : Database :=
  { db with symbols := db.symbols.filter (fun s => ¬ s.fileId = fileId) }

/-- Fields of `insertEmbedding`'s argument. -/
structure EmbeddingInput where
  fileId : ℕ
  symbolId : Option ℕ
  chunkIndex : ℕ
  content : Str
  embedding : List ℚ
  metadata : ChunkMetadata
  deriving DecidableEq

/-- Model of `insertEmbedding`. -/
def insertEmbedding (db : Database) (e : EmbeddingInput) : Database × ℕ :=
  ({ db with
      embeddings := db.embeddings ++ [⟨db.nextEmbeddingId, e.fileId,
        e.symbolId, e.chunkIndex, e.content, e.embedding, e.metadata⟩],
      nextEmbeddingId := db.nextEmbeddingId + 1 }, db.nextEmbeddingId)

/-- Model of `getEmbeddingsByFile`:
`SELECT * FROM embeddings WHERE file_id = ? ORDER BY chunk_index`. -/
def getEmbeddingsByFile (db : Database) (fileId : ℕ) : List EmbeddingRecord :=
  (db.embeddings.filter (fun e => e.fileId = fileId)).insertionSort
    (fun a b => a.chunkIndex ≤ b.chunkIndex)

/-- Model of `getAllEmbeddings`: `SELECT * FROM embeddings` (no order by;
SQLite scans in rowid = insertion order). -/
def getAllEmbeddings (db : Database) : List EmbeddingRecord :=
  db.embeddings

/-- Model of `clearEmbeddingsByFile`. -/
def clearEmbeddingsByFile (db : Database) (fileId : ℕ) : Database :=
  { db with embeddings := db.embeddings.filter (fun e => ¬ e.fileId = fileId) }

/-- Fields of `insertDependency`'s argument. -/
structure DependencyInput where
  sourceFileId : ℕ
  targetFileId : Option ℕ
  importPath : Str
  importType : Str
  isExternal : Bool
  symbols : List Str
  deriving DecidableEq

/-- Model of `insertDependency` (a falsy `targetFileId` is stored as NULL). -/
def insertDependency (db : Database) (d : DependencyInput) : Database × ℕ :=
  ({ db with
      dependencies := db.dependencies ++ [⟨db.nextDependencyId,
        d.sourceFileId, d.targetFileId, d.importPath, d.importType,
        d.isExternal, d.symbols⟩],
      nextDependencyId := db.nextDependencyId + 1 }, db.nextDependencyId)

/-- Model of `getDependenciesByFile`:
`SELECT * FROM dependencies WHERE source_file_id = ?`. -/
def getDependenciesByFile (db : Database) (fileId : ℕ) : List DependencyRecord :=
  db.dependencies.filter (fun d => d.sourceFileId = fileId)

/-- Model of `clearDependenciesByFile`. -/
def clearDependenciesByFile (db : Database) (fileId : ℕ) : Database :=
  { db with dependencies :=
      db.dependencies.filter (fun d => ¬ d.sourceFileId = fileId) }

end DatabaseManager

/-! ## Symbol and dependency extraction (`src/parsers/LanguageParser.ts`)

The pattern rules of the source are `RegExp` literals applied per line;
here each rule becomes an explicit scanning function with the same
leftmost-match, lazy/greedy behaviour on the inputs the engine feeds it.
-/

/-- The single-quote character, by code point. -/
def sqChar : Char := Char.ofNat 39

/-- ASCII letter test (the regex classes `[a-zA-Z]`). -/
def isAlphaA (c : Char) : Bool :=
  (97 ≤ c.toNat ∧ c.toNat ≤ 122) ∨ (65 ≤ c.toNat ∧ c.toNat ≤ 90)

/-- ASCII digit test (the regex class `[0-9]`). -/
def isDigitA (c : Char) : Bool := 48 ≤ c.toNat ∧ c.toNat ≤ 57

/-- Start character of the JavaScript identifier class `[a-zA-Z_$]`. -/
def isIdentStart (c : Char) : Bool := isAlphaA c ∨ c = '_' ∨ c = '$'

/-- Continuation character of `[a-zA-Z0-9_$]`. -/
def isIdentChar (c : Char) : Bool := isIdentStart c ∨ isDigitA c

/-- Start character of the Python/Java identifier class `[a-zA-Z_]`. -/
def isPyIdentStart (c : Char) : Bool := isAlphaA c ∨ c = '_'

/-- Continuation character of `[a-zA-Z0-9_]`; also the regex `\w` class. -/
def isPyIdentChar (c : Char) : Bool := isPyIdentStart c ∨ isDigitA c

/-- Matches a literal, returning the rest of the input. -/
def matchLit (lit s : Str) : Option Str :=
  if lit.isPrefixOf s then some (s.drop lit.length) else none

/-- Matches `\s+` (at least one whitespace character, maximal munch). -/
def ws1 (s : Str) : Option Str :=
  match s with
  | c :: r => if isWs c then some (r.dropWhile isWs) else none
  | [] => none

/-- Matches `\s*`. -/
def ws0 (s : Str) : Str := s.dropWhile isWs

/-- Parses one identifier given its start/continuation classes, returning
the identifier and the rest. -/
def identParse (isStart isChar : Char → Bool) (s : Str) : Option (Str × Str) :=
  match s with
  | c :: r =>
    if isStart c then some (c :: r.takeWhile isChar, r.dropWhile isChar)
    else none
  | [] => none

/-- Leftmost-match driver: tries the pattern at every suffix, leftmost
first, exactly as an unanchored `RegExp` search does. -/
def scanFirst (f : Str → Option α) : Str → Option α
  | [] => f []
  | c :: r =>
    match f (c :: r) with
    | some v => some v
    | none => scanFirst f r

/-- Model of `s.indexOf(sub)` starting the count at `k`. -/
def jsIndexOfSubAux (sub : Str) : Str → ℤ → ℤ
  | [], k => if sub.isPrefixOf ([] : Str) then k else -1
  | c :: r, k => if sub.isPrefixOf (c :: r) then k else jsIndexOfSubAux sub r (k + 1)

/-- Model of `s.indexOf(sub)` (`-1` when absent). -/
def jsIndexOfSub (s sub : Str) : ℤ := jsIndexOfSubAux sub s 0

/-- Model of the JavaScript `x || y` idiom on numbers that are natural
here: `0` is falsy. -/
def jsOrNat (v dflt : ℕ) : ℕ := if v = 0 then dflt else v

/-- Whole-word containment, modelling `new RegExp('\\b' + m + '\\b').test(line)`. -/
def containsWordAux (w : Str) (prev : Option Char) : Str → Bool
  | [] => false
  | c :: r =>
    let okBefore : Bool := match prev with
      | none => true
      | some p => ! isPyIdentChar p
    let okAfter : Bool := match (c :: r).drop w.length with
      | [] => true
      | d :: _ => ! isPyIdentChar d
    (w.isPrefixOf (c :: r) && okBefore && okAfter) || containsWordAux w (some c) r

/-- Whole-word containment of a nonempty word `w` in `line`. -/
def containsWord (line w : Str) : Bool := containsWordAux w none line

namespace LanguageParser

/-- Extracted structural element, mirroring the `ParsedSymbol` interface. -/
structure ParsedSymbol where
  name : Str
  type : Str
  startLine : ℕ
  endLine : ℕ
  startColumn : ℤ
  endColumn : ℤ
  definition : Str
  docstring : Option Str
  modifiers : List Str
  deriving DecidableEq, Repr

/-- Extracted import relationship, mirroring the `ParsedDependency`
interface. -/
structure ParsedDependency where
  importPath : Str
  importType : Str
  isExternal : Bool
  symbols : List Str
  deriving DecidableEq, Repr

/-- The `supportedLanguages` set. -/
def supportedLanguages : List Str :=
  [str "javascript", str "typescript", str "python", str "java", str "cpp",
   str "c", str "csharp", str "php", str "ruby", str "go", str "rust",
   str "swift", str "kotlin", str "scala", str "clojure"]

/-- Model of `path.extname`: the suffix of the basename from its last dot,
empty for dotless names and for a leading-dot-only name. -/
def extnameOf (p : Str) : Str :=
  let base := (splitOnChar '/' p).getLast!
  let idxs := (List.range base.length).filter (fun i => base.getD i ' ' = '.')
  match idxs.getLast? with
  | some 0 => []
  | some i => base.drop i
  | none => []

/-- Model of `detectLanguage`: lower-cased extension looked up in the
`languageMap`, defaulting to `'unknown'`. -/
def detectLanguage (filePath : Str) : Str :=
  let ext := lowerStr (extnameOf filePath)
  let m : List (Str × Str) :=
    [(str ".js", str "javascript"), (str ".jsx", str "javascript"),
     (str ".ts", str "typescript"), (str ".tsx", str "typescript"),
     (str ".py", str "python"), (str ".pyw", str "python"),
     (str ".java", str "java"), (str ".cpp", str "cpp"),
     (str ".cxx", str "cpp"), (str ".cc", str "cpp"),
     (str ".c", str "c"), (str ".h", str "c"), (str ".hpp", str "cpp"),
     (str ".cs", str "csharp"), (str ".php", str "php"),
     (str ".rb", str "ruby"), (str ".go", str "go"), (str ".rs", str "rust"),
     (str ".swift", str "swift"), (str ".kt", str "kotlin"),
     (str ".scala", str "scala"), (str ".clj", str "clojure"),
     (str ".json", str "json"), (str ".yaml", str "yaml"),
     (str ".yml", str "yaml"), (str ".xml", str "xml"),
     (str ".html", str "html"), (str ".css", str "css"),
     (str ".scss", str "scss"), (str ".md", str "markdown")]
  match m.find? (fun p => p.1 = ext) with
  | some p => p.2
  | none => str "unknown"

/-- Model of `isSupported`. -/
def isSupported (language : Str) : Bool := language ∈ supportedLanguages

/-- Model of `getDefinition`: up to five lines from the declaration,
joined and trimmed. -/
def getDefinition (lines : List Str) (startIndex : ℕ) : Str :=
  jsTrim (joinWith '\n' ((lines.drop startIndex).take 5))

/-- Character loop of `findEndLine` over one line: threads the brace depth
and the `found` flag; `Except.error` models the early `return`. -/
def lineScan (openC closeC : Char) : Str → ℤ → Bool → Except Unit (ℤ × Bool)
  | [], d, f => Except.ok (d, f)
  | c :: rest, d, f =>
    if c = openC then lineScan openC closeC rest (d + 1) true
    else if c = closeC then
      (if f ∧ d - 1 = 0 then Except.error ()
       else lineScan openC closeC rest (d - 1) f)
    else lineScan openC closeC rest d f

/-- Line loop of `findEndLine`. -/
def findEndLineAux (openC closeC : Char) : List Str → ℕ → ℤ → Bool → ℕ → ℕ
  | [], _, _, _, start => start + 1
  | l :: rest, idx, d, f, start =>
    match lineScan openC closeC l d f with
    | Except.error () => idx + 1
    | Except.ok (d2, f2) => findEndLineAux openC closeC rest (idx + 1) d2 f2 start

/-- Model of `findEndLine`: 1-based line of the matching close character,
`startIndex + 1` when never balanced. -/
def findEndLine (lines : List Str) (startIndex : ℕ) (openC closeC : Char) : ℕ :=
  findEndLineAux openC closeC (lines.drop startIndex) startIndex 0 false startIndex

/-- Scan of `findPythonBlockEnd` over the remaining lines: `i` is the
0-based index of the head of `ls`, `total` the file's line count. -/
def findPythonBlockEndGo (baseIndent : ℕ) : List Str → ℕ → ℕ → ℕ
  | [], _, total => total
  | l :: rest, i, total =>
    if jsTrim l = [] then findPythonBlockEndGo baseIndent rest (i + 1) total
    else if l.length - (l.dropWhile isWs).length ≤ baseIndent then i
    else findPythonBlockEndGo baseIndent rest (i + 1) total

/-- Model of `findPythonBlockEnd`: first nonempty line at or below the
base indentation after the declaration, else the line count. -/
def findPythonBlockEnd (lines : List Str) (startIndex baseIndent : ℕ) : ℕ :=
  findPythonBlockEndGo baseIndent (lines.drop (startIndex + 1))
    (startIndex + 1) lines.length

/-- Model of `extractModifiers` (plain `includes` tests, fixed order). -/
def extractModifiers (line : Str) : List Str :=
  [str "export", str "default", str "async", str "static", str "const",
   str "let", str "var"].filter (fun k => containsSub line k)

/-- Model of `extractJavaModifiers` (word-boundary tests). -/
def extractJavaModifiers (line : Str) : List Str :=
  [str "public", str "private", str "protected", str "static", str "final",
   str "abstract", str "synchronized"].filter (fun k => containsWord line k)

/-- Model of `extractCppModifiers` (word-boundary tests). -/
def extractCppModifiers (line : Str) : List Str :=
  [str "static", str "extern", str "inline", str "const", str "virtual",
   str "override"].filter (fun k => containsWord line k)

/-- Upward scan of `extractPythonDecorators` from index `j`. -/
def pyDecorAux (lines : List Str) : ℕ → List Str → List Str
  | 0, acc =>
    let t := jsTrim (lines.getD 0 [])
    if [ '@' ].isPrefixOf t then t :: acc else acc
  | j + 1, acc =>
    let t := jsTrim (lines.getD (j + 1) [])
    if [ '@' ].isPrefixOf t then pyDecorAux lines j (t :: acc)
    else if t = [] then pyDecorAux lines j acc
    else acc

/-- Model of `extractPythonDecorators`. -/
def extractPythonDecorators (lines : List Str) (functionIndex : ℕ) : List Str :=
  match functionIndex with
  | 0 => []
  | j + 1 => pyDecorAux lines j []

/-- Continuation-line loop of `extractPythonDocstring`. -/
def pyDocRest (q : Str) : List Str → Str → Str
  | [], acc => acc
  | l :: rest, acc =>
    if containsSub l q then acc ++ '\n' :: takeUntilSub q l
    else pyDocRest q rest (acc ++ '\n' :: l)

/-- Model of `extractPythonDocstring`. -/
def extractPythonDocstring (lines : List Str) (startIndex : ℕ) : Option Str :=
  if startIndex < lines.length then
    let line := jsTrim (lines.getD startIndex [])
    if (str "\"\"\"").isPrefixOf line ∨ [sqChar, sqChar, sqChar].isPrefixOf line then
      let quote := line.take 3
      let ds := line.drop 3
      if quote.isSuffixOf line ∧ 6 < line.length then
        some (ds.take (ds.length - 3))
      else
        some (jsTrim (pyDocRest quote (lines.drop (startIndex + 1)) ds))
    else none
  else none

/-- Upward scan of `isInsideClass`. -/
def isInsideClassFrom (lines : List Str) : ℕ → Bool
  | 0 =>
    let t := jsTrim (lines.getD 0 [])
    (str "class ").isPrefixOf t ∧ containsSub t [ '{' ]
  | k + 1 =>
    let t := jsTrim (lines.getD (k + 1) [])
    if (str "class ").isPrefixOf t ∧ containsSub t [ '{' ] then true
    else if t = [ '}' ] ∨ (str "function ").isPrefixOf t then false
    else isInsideClassFrom lines k

/-- Model of the `isInsideClass` heuristic. -/
def isInsideClass (lines : List Str) (currentIndex : ℕ) : Bool :=
  match currentIndex with
  | 0 => false
  | k + 1 => isInsideClassFrom lines k

/-- Rule `/(?:export\s+)?(?:async\s+)?function\s+([a-zA-Z_$][a-zA-Z0-9_$]*)\s*\(/`:
captured function name. -/
def jsFunctionMatch (line : Str) : Option Str :=
  scanFirst (fun s => do
    let s ← matchLit (str "function") s
    let s ← ws1 s
    let (name, s) ← identParse isIdentStart isIdentChar s
    let s := ws0 s
    let _ ← matchLit [ '(' ] s
    pure name) line

/-- Shared tail `\([^)]*\)` of the arrow rule. -/
def arrowParen (s : Str) : Option Str := do
  let s ← matchLit [ '(' ] s
  let s := s.dropWhile (fun c => ¬ c = ')')
  let s ← matchLit [ ')' ] s
  let s := ws0 s
  let s ← matchLit (str "=>") s
  pure s

/-- Rule `/(?:export\s+)?(?:const|let|var)\s+([a-zA-Z_$][a-zA-Z0-9_$]*)\s*=\s*(?:async\s*)?\([^)]*\)\s*=>/`:
captured arrow-function name. -/
def jsArrowMatch (line : Str) : Option Str :=
  scanFirst (fun s => do
    let s ← (matchLit (str "const") s).orElse (fun _ =>
              (matchLit (str "let") s).orElse (fun _ =>
                matchLit (str "var") s))
    let s ← ws1 s
    let (name, s) ← identParse isIdentStart isIdentChar s
    let s := ws0 s
    let s ← matchLit [ '=' ] s
    let s := ws0 s
    match (do
        let r ← matchLit (str "async") s
        arrowParen (ws0 r)) with
    | some _ => pure name
    | none => do
      let _ ← arrowParen s
      pure name) line

/-- Rule `/(?:export\s+)?class\s+([a-zA-Z_$][a-zA-Z0-9_$]*)/`. -/
def jsClassMatch (line : Str) : Option Str :=
  scanFirst (fun s => do
    let s ← matchLit (str "class") s
    let s ← ws1 s
    let (name, _) ← identParse isIdentStart isIdentChar s
    pure name) line

/-- Rule `/(?:export\s+)?interface\s+([a-zA-Z_$][a-zA-Z0-9_$]*)/`. -/
def jsInterfaceMatch (line : Str) : Option Str :=
  scanFirst (fun s => do
    let s ← matchLit (str "interface") s
    let s ← ws1 s
    let (name, _) ← identParse isIdentStart isIdentChar s
    pure name) line

/-- Rule `/(?:export\s+)?type\s+([a-zA-Z_$][a-zA-Z0-9_$]*)\s*=/`. -/
def jsTypeMatch (line : Str) : Option Str :=
  scanFirst (fun s => do
    let s ← matchLit (str "type") s
    let s ← ws1 s
    let (name, s) ← identParse isIdentStart isIdentChar s
    let s := ws0 s
    let _ ← matchLit [ '=' ] s
    pure name) line

/-- Rule `/(?:export\s+)?(?:const|let|var)\s+([a-zA-Z_$][a-zA-Z0-9_$]*)/`. -/
def jsVarMatch (line : Str) : Option Str :=
  scanFirst (fun s => do
    let s ← (matchLit (str "const") s).orElse (fun _ =>
              (matchLit (str "let") s).orElse (fun _ =>
                matchLit (str "var") s))
    let s ← ws1 s
    let (name, _) ← identParse isIdentStart isIdentChar s
    pure name) line

/-- Core of the anchored method rule after the optional `async`. -/
def jsMethodCore (s : Str) : Option Str := do
  let (name, s) ← identParse isIdentStart isIdentChar s
  let s := ws0 s
  let s ← matchLit [ '(' ] s
  let s := s.dropWhile (fun c => ¬ c = ')')
  let s ← matchLit [ ')' ] s
  let s := ws0 s
  match s with
  | c :: _ => if c = ':' ∨ c = '{' then some name else none
  | [] => none

/-- Rule `/^\s*(?:async\s+)?([a-zA-Z_$][a-zA-Z0-9_$]*)\s*\([^)]*\)\s*[:\x7b]/`
(anchored); tries the `async`-consuming alternative first, then backtracks,
as the engine does. -/
def jsMethodMatch (line : Str) : Option Str :=
  let s := ws0 line
  match (do
      let r ← matchLit (str "async") s
      let r ← ws1 r
      jsMethodCore r) with
  | some n => some n
  | none => jsMethodCore s


/-- Symbols contributed by line `i` in `parseJavaScriptSymbols` (the
pushes happen in the source order: function, arrow, class, interface,
type aliasN, variable, method). -/
def jsLineSymbols (lines : List Str) (i : ℕ) : List ParsedSymbol :=
  let line := lines.getD i []
  let lineNumber := i + 1
  let am := jsArrowMatch line
  (match jsFunctionMatch line with
   | some name =>
     [⟨name, str "function", lineNumber, findEndLine lines i '{' '}',
       jsIndexOfSub line (str "function") + 1, (line.length : ℤ) + 1,
       getDefinition lines i, none, extractModifiers line⟩]
   | none => []) ++
  (match am with
   | some name =>
     [⟨name, str "function", lineNumber,
       jsOrNat (findEndLine lines i '{' '}') lineNumber,
       jsIndexOfSub line name + 1, (line.length : ℤ) + 1,
       getDefinition lines i, none, extractModifiers line⟩]
   | none => []) ++
  (match jsClassMatch line with
   | some name =>
     [⟨name, str "class", lineNumber, findEndLine lines i '{' '}',
       jsIndexOfSub line (str "class") + 1, (line.length : ℤ) + 1,
       getDefinition lines i, none, extractModifiers line⟩]
   | none => []) ++
  (match jsInterfaceMatch line with
   | some name =>
     [⟨name, str "interface", lineNumber, findEndLine lines i '{' '}',
       jsIndexOfSub line (str "interface") + 1, (line.length : ℤ) + 1,
       getDefinition lines i, none, extractModifiers line⟩]
   | none => []) ++
  (match jsTypeMatch line with
   | some name =>
     [⟨name, str "type", lineNumber, lineNumber,
       jsIndexOfSub line (str "type") + 1, (line.length : ℤ) + 1,
       jsTrim line, none, extractModifiers line⟩]
   | none => []) ++
  (match jsVarMatch line, am with
   | some name, none =>
     [⟨name, str "variable", lineNumber, lineNumber,
       jsIndexOfSub line name + 1, (line.length : ℤ) + 1,
       jsTrim line, none, extractModifiers line⟩]
   | _, _ => []) ++
  (match jsMethodMatch line with
   | some name =>
     if isInsideClass lines i then
       [⟨name, str "method", lineNumber, findEndLine lines i '{' '}',
         jsIndexOfSub line name + 1, (line.length : ℤ) + 1,
         getDefinition lines i, none, extractModifiers line⟩]
     else []
   | none => [])

/-- Model of `parseJavaScriptSymbols`. -/
def parseJavaScriptSymbols (content : Str) : List ParsedSymbol :=
  let lines := splitLines content
  (List.range lines.length).flatMap (jsLineSymbols lines)

/-- Rule `/^(\s*)def\s+([a-zA-Z_][a-zA-Z0-9_]*)\s*\(/` (anchored): captured
indent width and name. -/
def pyFunctionMatch (line : Str) : Option (ℕ × Str) := do
  let indent := (line.takeWhile isWs).length
  let s := line.dropWhile isWs
  let s ← matchLit (str "def") s
  let s ← ws1 s
  let (name, s) ← identParse isPyIdentStart isPyIdentChar s
  let s := ws0 s
  let _ ← matchLit [ '(' ] s
  pure (indent, name)

/-- Rule `/^(\s*)class\s+([a-zA-Z_][a-zA-Z0-9_]*)/` (anchored). -/
def pyClassMatch (line : Str) : Option (ℕ × Str) := do
  let indent := (line.takeWhile isWs).length
  let s := line.dropWhile isWs
  let s ← matchLit (str "class") s
  let s ← ws1 s
  let (name, _) ← identParse isPyIdentStart isPyIdentChar s
  pure (indent, name)

/-- Rule `/^([a-zA-Z_][a-zA-Z0-9_]*)\s*=/` (anchored). -/
def pyVarMatch (line : Str) : Option Str := do
  let (name, s) ← identParse isPyIdentStart isPyIdentChar line
  let s := ws0 s
  let _ ← matchLit [ '=' ] s
  pure name

/-- Symbols contributed by line `i` in `parsePythonSymbols`. -/
def pyLineSymbols (lines : List Str) (i : ℕ) : List ParsedSymbol :=
  let line := lines.getD i []
  let lineNumber := i + 1
  (match pyFunctionMatch line with
   | some (indent, name) =>
     [⟨name, str "function", lineNumber, findPythonBlockEnd lines i indent,
       jsIndexOfSub line (str "def") + 1, (line.length : ℤ) + 1,
       getDefinition lines i, extractPythonDocstring lines (i + 1),
       extractPythonDecorators lines i⟩]
   | none => []) ++
  (match pyClassMatch line with
   | some (indent, name) =>
     [⟨name, str "class", lineNumber, findPythonBlockEnd lines i indent,
       jsIndexOfSub line (str "class") + 1, (line.length : ℤ) + 1,
       getDefinition lines i, extractPythonDocstring lines (i + 1),
       extractPythonDecorators lines i⟩]
   | none => []) ++
  (match pyVarMatch line with
   | some name =>
     if ¬ containsSub line (str "def ") ∧ ¬ containsSub line (str "class ") then
       [⟨name, str "variable", lineNumber, lineNumber, 1,
         (line.length : ℤ) + 1, jsTrim line, none, []⟩]
     else []
   | none => [])

/-- Model of `parsePythonSymbols`. -/
def parsePythonSymbols (content : Str) : List ParsedSymbol :=
  let lines := splitLines content
  (List.range lines.length).flatMap (pyLineSymbols lines)

/-- Character class `[a-zA-Z_$<>[\]]` of the Java method rule's return
type token. -/
def isJavaTypeChar (c : Char) : Bool :=
  isAlphaA c ∨ c = '_' ∨ c = '$' ∨ c = '<' ∨ c = '>' ∨ c = '[' ∨ c = ']'

/-- Rule `/(?:public\s+|private\s+|protected\s+)?(?:static\s+)?(?:final\s+)?class\s+([a-zA-Z_$][a-zA-Z0-9_$]*)/`:
the optional prefixes never constrain the captured name. -/
def javaClassMatch (line : Str) : Option Str :=
  scanFirst (fun s => do
    let s ← matchLit (str "class") s
    let s ← ws1 s
    let (name, _) ← identParse isIdentStart isIdentChar s
    pure name) line

/-- Rule
`/(?:public\s+|private\s+|protected\s+)?(?:static\s+)?(?:final\s+)?(?:synchronized\s+)?[a-zA-Z_$<>[\]]+\s+([a-zA-Z_$][a-zA-Z0-9_$]*)\s*\(/`:
a return-type token, whitespace, then the captured method name before `(`. -/
def javaMethodMatch (line : Str) : Option Str :=
  scanFirst (fun s => do
    let (_, s) ← identParse isJavaTypeChar isJavaTypeChar s
    let s ← ws1 s
    let (name, s) ← identParse isIdentStart isIdentChar s
    let s := ws0 s
    let _ ← matchLit [ '(' ] s
    pure name) line

/-- Rule `/(?:public\s+)?interface\s+([a-zA-Z_$][a-zA-Z0-9_$]*)/`. -/
def javaInterfaceMatch (line : Str) : Option Str :=
  scanFirst (fun s => do
    let s ← matchLit (str "interface") s
    let s ← ws1 s
    let (name, _) ← identParse isIdentStart isIdentChar s
    pure name) line

/-- Symbols contributed by line `i` in `parseJavaSymbols`. -/
def javaLineSymbols (lines : List Str) (i : ℕ) : List ParsedSymbol :=
  let line := lines.getD i []
  let lineNumber := i + 1
  (match javaClassMatch line with
   | some name =>
     [⟨name, str "class", lineNumber, findEndLine lines i '{' '}',
       jsIndexOfSub line (str "class") + 1, (line.length : ℤ) + 1,
       getDefinition lines i, none, extractJavaModifiers line⟩]
   | none => []) ++
  (match javaMethodMatch line with
   | some name =>
     if ¬ containsSub line (str "class ") then
       [⟨name, str "method", lineNumber, findEndLine lines i '{' '}',
         jsIndexOfSub line name + 1, (line.length : ℤ) + 1,
         getDefinition lines i, none, extractJavaModifiers line⟩]
     else []
   | none => []) ++
  (match javaInterfaceMatch line with
   | some name =>
     [⟨name, str "interface", lineNumber, findEndLine lines i '{' '}',
       jsIndexOfSub line (str "interface") + 1, (line.length : ℤ) + 1,
       getDefinition lines i, none, extractJavaModifiers line⟩]
   | none => [])

/-- Model of `parseJavaSymbols`. -/
def parseJavaSymbols (content : Str) : List ParsedSymbol :=
  let lines := splitLines content
  (List.range lines.length).flatMap (javaLineSymbols lines)

/-- Character class `[a-zA-Z_*&:<>[\]\s]` of the C/C++ function rule's
type part (whitespace included). -/
def isCppTypeChar (c : Char) : Bool :=
  isAlphaA c ∨ c = '_' ∨ c = '*' ∨ c = '&' ∨ c = ':' ∨ c = '<' ∨ c = '>' ∨
    c = '[' ∨ c = ']' ∨ isWs c

/-- Strips one optional leading keyword followed by `\s+`. -/
def stripKw (kw : Str) (s : Str) : Str :=
  match (do
      let r ← matchLit kw s
      ws1 r) with
  | some r => r
  | none => s

/-- Rule
`/^(?:inline\s+|static\s+|extern\s+)?(?:const\s+)?[a-zA-Z_*&:<>[\]\s]+\s+([a-zA-Z_][a-zA-Z0-9_]*)\s*\([^)]*\)/`
(anchored).  After the optional storage/const keywords the line must read
as a nonempty type part (whose characters, whitespace included, lie in the
class above and which ends in whitespace), the captured identifier, then a
closed parenthesis group. -/
def cppFunctionMatch (line : Str) : Option Str :=
  let s := stripKw (str "extern") (stripKw (str "static") (stripKw (str "inline") line))
  let s := stripKw (str "const") s
  let rec go (pre : Str) (rest : Str) : Option Str :=
    match rest with
    | [] => none
    | c :: r =>
      (match (do
          let (name, t) ← identParse isPyIdentStart isPyIdentChar (c :: r)
          let t := ws0 t
          let t ← matchLit [ '(' ] t
          let t := t.dropWhile (fun d => ¬ d = ')')
          let _ ← matchLit [ ')' ] t
          if 2 ≤ pre.length ∧ pre.all (fun d => isCppTypeChar d) ∧
              (∀ d ∈ pre.getLast?, isWs d) then
            pure name
          else none) with
       | some name => some name
       | none => go (pre ++ [c]) r)
  go [] s

/-- Rule `/(?:template\s*<[^>]*>\s*)?class\s+([a-zA-Z_][a-zA-Z0-9_]*)/`. -/
def cppClassMatch (line : Str) : Option Str :=
  scanFirst (fun s => do
    let s ← matchLit (str "class") s
    let s ← ws1 s
    let (name, _) ← identParse isPyIdentStart isPyIdentChar s
    pure name) line

/-- Rule `/(?:template\s*<[^>]*>\s*)?struct\s+([a-zA-Z_][a-zA-Z0-9_]*)/`. -/
def cppStructMatch (line : Str) : Option Str :=
  scanFirst (fun s => do
    let s ← matchLit (str "struct") s
    let s ← ws1 s
    let (name, _) ← identParse isPyIdentStart isPyIdentChar s
    pure name) line

/-- Symbols contributed by line `i` in `parseCppSymbols`. -/
def cppLineSymbols (lines : List Str) (i : ℕ) : List ParsedSymbol :=
  let line := lines.getD i []
  let lineNumber := i + 1
  (match cppFunctionMatch line with
   | some name =>
     if ¬ containsSub line (str "class ") ∧ ¬ containsSub line (str "struct ") then
       [⟨name, str "function", lineNumber,
         jsOrNat (findEndLine lines i '{' '}') lineNumber,
         jsIndexOfSub line name + 1, (line.length : ℤ) + 1,
         getDefinition lines i, none, extractCppModifiers line⟩]
     else []
   | none => []) ++
  (match cppClassMatch line with
   | some name =>
     [⟨name, str "class", lineNumber, findEndLine lines i '{' '}',
       jsIndexOfSub line (str "class") + 1, (line.length : ℤ) + 1,
       getDefinition lines i, none, extractCppModifiers line⟩]
   | none => []) ++
  (match cppStructMatch line with
   | some name =>
     [⟨name, str "class", lineNumber, findEndLine lines i '{' '}',
       jsIndexOfSub line (str "struct") + 1, (line.length : ℤ) + 1,
       getDefinition lines i, none, extractCppModifiers line⟩]
   | none => [])

/-- Model of `parseCppSymbols`. -/
def parseCppSymbols (content : Str) : List ParsedSymbol :=
  let lines := splitLines content
  (List.range lines.length).flatMap (cppLineSymbols lines)

/-- Model of `parseSymbols`.  The guard `if (!content) return []` catches
both `null` (`none`) and the empty string; then the language dispatch
runs, defaulting to the empty list. -/
def parseSymbols (content : Option Str) (language : Str) : List ParsedSymbol :=
  match content with
  | none => []
  | some s =>
    if s = [] then []
    else if language = str "javascript" ∨ language = str "typescript" then
      parseJavaScriptSymbols s
    else if language = str "python" then parsePythonSymbols s
    else if language = str "java" then parseJavaSymbols s
    else if language = str "cpp" ∨ language = str "c" then parseCppSymbols s
    else []


/-- Quote character class `['"]` of the import rules. -/
def isQuote (c : Char) : Bool := c = '"' ∨ c = sqChar

/-- Tail `['"](.*?)['"]` after `from` in the ES6 import rule: the written
path is the lazy capture between the first quote and the next quote
character. -/
def quotedPath (s : Str) : Option Str :=
  match s with
  | c :: r =>
    if isQuote c then
      let p := r.takeWhile (fun d => ¬ isQuote d)
      match r.drop p.length with
      | _ :: _ => some p
      | [] => none
    else none
  | [] => none

/-- Lazy clause capture `(.+?)\s+from\s+['"]...` of the ES6 import rule:
grows the capture one character at a time and stops at the first length
that lets the tail match, as a lazy group does. -/
def importClauseGo (acc : Str) : Str → Option (Str × Str)
  | [] => none
  | c :: r =>
    if c = '\n' then none
    else
      let acc2 := acc ++ [c]
      match (do
          let t ← ws1 r
          let t ← matchLit (str "from") t
          let t ← ws1 t
          quotedPath t) with
      | some path => some (acc2, path)
      | none => importClauseGo acc2 r

/-- Rule `/import\s+(?:(.+?)\s+from\s+)?['"](.*?)['"];?/` applied at one
position: the optional clause group is tried first (greedy option), then
the bare `import '...'` form. -/
def importAt (s : Str) : Option (Option Str × Str) := do
  let s ← matchLit (str "import") s
  let s ← ws1 s
  match importClauseGo [] s with
  | some (clause, path) => some (some clause, path)
  | none =>
    match quotedPath s with
    | some path => some (none, path)
    | none => none

/-- Named-import extraction `/\{([^\x7d]+)\}/` over the captured clause,
then the `split(',')`/`trim`/`split(' as ')[0]` pipeline of the source. -/
def namedImportSymbols (clause : Str) : List Str :=
  match splitOnChar '{' clause with
  | _ :: afterBrace :: _ =>
    let inner := afterBrace.takeWhile (fun d => ¬ d = '}')
    if inner ≠ [] ∧ afterBrace.drop inner.length ≠ [] then
      (splitOnChar ',' inner).map (fun p => takeUntilSub (str " as ") (jsTrim p))
    else []
  | _ => []

/-- Imported-symbol list for an ES6 import clause, as in the source:
braces mean named imports, a clause without `*` is a default import, a
namespace import contributes nothing. -/
def importSymbolsOf (clause : Option Str) : List Str :=
  match clause with
  | none => []
  | some c =>
    let clause := jsTrim c
    if containsSub clause [ '{' ] then namedImportSymbols clause
    else if ¬ containsSub clause [ '*' ] then [clause]
    else []

/-- ES6 import contribution of one line. -/
def jsImportOfLine (line : Str) : List ParsedDependency :=
  match scanFirst importAt line with
  | some (clause, path) =>
    [⟨path, str "import",
      ¬ path.head? = some '.' ∧ ¬ path.head? = some '/',
      importSymbolsOf clause⟩]
  | none => []

/-- Closing tail `['"]?\s*\)` of the require rule: an optional quote, then
whitespace, then the closing parenthesis (quote-consuming first). -/
def requireClose (s : Str) : Bool :=
  let withQuote : Bool := match s with
    | c :: r => isQuote c && ((ws0 r).head? = some ')')
    | [] => false
  withQuote || ((ws0 s).head? = some ')')

/-- Lazy capture `(.*?)` of the required path, stopped at the first point
where `['"]?\s*\)` completes. -/
def requirePathGo (acc : Str) : Str → Option Str
  | [] => if requireClose [] then some acc else none
  | c :: r =>
    if requireClose (c :: r) then some acc
    else requirePathGo (acc ++ [c]) r

/-- Tail `=\s*require\s*\(\s*['"](.*?)['"]?\s*\)` of the require rule. -/
def requireTail (s : Str) : Option Str := do
  let s ← matchLit [ '=' ] s
  let s := ws0 s
  let s ← matchLit (str "require") s
  let s := ws0 s
  let s ← matchLit [ '(' ] s
  let s := ws0 s
  match s with
  | c :: r => if isQuote c then requirePathGo [] r else none
  | [] => none

/-- Lazy variable-part capture `(.+?)\s*=` of the require rule. -/
def requireVarGo (acc : Str) : Str → Option (Str × Str)
  | [] => none
  | c :: r =>
    if c = '\n' then none
    else
      let acc2 := acc ++ [c]
      match requireTail (ws0 r) with
      | some path => some (acc2, path)
      | none => requireVarGo acc2 r

/-- Rule
`/(?:const|let|var)\s+(.+?)\s*=\s*require\s*\(\s*['"](.*?)['"]?\s*\)/`
applied at one position. -/
def requireAt (s : Str) : Option (Str × Str) := do
  let s ← (matchLit (str "const") s).orElse (fun _ =>
            (matchLit (str "let") s).orElse (fun _ =>
              matchLit (str "var") s))
  let s ← ws1 s
  requireVarGo [] s

/-- Destructured-require symbol extraction of the source (`split(',')`
with `trim`, no `as` handling). -/
def requireSymbolsOf (varPart : Str) : List Str :=
  let v := jsTrim varPart
  if containsSub v [ '{' ] then
    match splitOnChar '{' v with
    | _ :: afterBrace :: _ =>
      let inner := afterBrace.takeWhile (fun d => ¬ d = '}')
      if inner ≠ [] ∧ afterBrace.drop inner.length ≠ [] then
        (splitOnChar ',' inner).map jsTrim
      else []
    | _ => []
  else [v]

/-- CommonJS require contribution of one line. -/
def jsRequireOfLine (line : Str) : List ParsedDependency :=
  match scanFirst requireAt line with
  | some (varPart, path) =>
    [⟨path, str "require",
      ¬ path.head? = some '.' ∧ ¬ path.head? = some '/',
      requireSymbolsOf varPart⟩]
  | none => []

/-- Model of `parseJavaScriptDependencies`: per line, the ES6 import rule
then the require rule. -/
def parseJavaScriptDependencies (content : Str) : List ParsedDependency :=
  (splitLines content).flatMap (fun line =>
    jsImportOfLine line ++ jsRequireOfLine line)

/-- Module-path token `[a-zA-Z_][a-zA-Z0-9_.]*` of the Python import rules. -/
def pyModuleParse (s : Str) : Option (Str × Str) :=
  identParse isPyIdentStart (fun c => isPyIdentChar c ∨ c = '.') s

/-- Rule `/^import\s+([a-zA-Z_][a-zA-Z0-9_.]*)(?:\s+as\s+([a-zA-Z_][a-zA-Z0-9_]*))?/`
(anchored): module and optional aliasN. -/
def pyImportMatch (line : Str) : Option (Str × Option Str) := do
  let s ← matchLit (str "import") line
  let s ← ws1 s
  let (m, s) ← pyModuleParse s
  match (do
      let t ← ws1 s
      let t ← matchLit (str "as") t
      let t ← ws1 t
      let (aliasN, _) ← identParse isPyIdentStart isPyIdentChar t
      pure aliasN) with
  | some aliasN => pure (m, some aliasN)
  | none => pure (m, none)

/-- Rule `/^from\s+([a-zA-Z_][a-zA-Z0-9_.]*)\s+import\s+(.+)/` (anchored). -/
def pyFromImportMatch (line : Str) : Option (Str × Str) := do
  let s ← matchLit (str "from") line
  let s ← ws1 s
  let (m, s) ← pyModuleParse s
  let s ← ws1 s
  let s ← matchLit (str "import") s
  let s ← ws1 s
  if s = [] then none else pure (m, s)

/-- The `importPath.split('.').pop() || importPath` idiom. -/
def lastDotComponent (m : Str) : Str :=
  match (splitOnChar '.' m).getLast? with
  | some l => if l = [] then m else l
  | none => m

/-- Python import contribution of one line (`import` rule then `from`
rule, as in the source loop). -/
def pyDepsOfLine (line : Str) : List ParsedDependency :=
  (match pyImportMatch line with
   | some (m, aliasN) =>
     [⟨m, str "import", ¬ m.head? = some '.',
       match aliasN with
       | some a => [a]
       | none => [lastDotComponent m]⟩]
   | none => []) ++
  (match pyFromImportMatch line with
   | some (m, items) =>
     [⟨m, str "import", ¬ m.head? = some '.',
       if containsSub items [ ',' ] then
         (splitOnChar ',' items).map (fun p => takeUntilSub (str " as ") (jsTrim p))
       else [takeUntilSub (str " as ") (jsTrim items)]⟩]
   | none => [])

/-- Model of `parsePythonDependencies`. -/
def parsePythonDependencies (content : Str) : List ParsedDependency :=
  (splitLines content).flatMap pyDepsOfLine

/-- Rule `/^package\s+([a-zA-Z_][a-zA-Z0-9_.]*);?/m` of `getCurrentPackage`:
first line that declares a package, else the empty string. -/
def getCurrentPackage (content : Str) : Str :=
  let hit := (splitLines content).findSome? (fun line => do
    let s ← matchLit (str "package") line
    let s ← ws1 s
    let (m, _) ← pyModuleParse s
    pure m)
  hit.getD []

/-- Rule `/^import\s+(?:static\s+)?([a-zA-Z_][a-zA-Z0-9_.]*(?:\.\*)?);?/`
(anchored): the captured path may end in `.*` for a wildcard import. -/
def javaImportMatch (line : Str) : Option Str := do
  let s ← matchLit (str "import") line
  let s ← ws1 s
  let s := stripKw (str "static") s
  let (m, rest) ← pyModuleParse s
  match m.getLast?, rest.head? with
  | some '.', some '*' => pure (m ++ [ '*' ])
  | _, _ => pure m

/-- Model of `parseJavaDependencies`. -/
def parseJavaDependencies (content : Str) : List ParsedDependency :=
  let pkg := getCurrentPackage content
  (splitLines content).flatMap (fun line =>
    match javaImportMatch line with
    | some m =>
      [⟨m, str "import", ¬ pkg.isPrefixOf m,
        if (str ".*").isSuffixOf m then [[ '*' ]] else [lastDotComponent m]⟩]
    | none => [])

/-- Model of `parseDependencies`.  The dispatch happens before the content
is touched: a language with a dependency parser dereferences the content
(throwing on `null`, modelled as `none`); any other language returns the
empty list untouched. -/
def parseDependencies (content : Option Str) (language : Str) (_filePath : Str) :
    Option (List ParsedDependency) :=
  if language = str "javascript" ∨ language = str "typescript" then
    content.map parseJavaScriptDependencies
  else if language = str "python" then content.map parsePythonDependencies
  else if language = str "java" then content.map parseJavaDependencies
  else some []

end LanguageParser


/-! ## Embedding provider (`src/embeddings/EmbeddingGenerator.ts`)

The local fallback embedding.  `Math.log`, `Math.sin` and `Math.sqrt` are
deterministic IEEE-754 library functions; they enter the model as
function parameters `logF`, `sinF`, `sqrtF`, so every theorem holds for
every valuation, the real library functions included.  The remote OpenAI
path needs an API key and network and is outside the model; without a
key `generateEmbedding` is exactly `generateLocalEmbedding`. -/

namespace EmbeddingGenerator

/-- The `options.dimensions || 1536` idiom (`0` is falsy). -/
def dimensionsOf (opt : Option ℕ) : ℕ :=
  match opt with
  | some n => if n = 0 then 1536 else n
  | none => 1536

/-- Splitter for `/\s+/` (maximal whitespace runs; boundary runs leave
empty segments, as in JavaScript).  The `Bool` is true while inside a
whitespace run. -/
def splitWsAux : Bool → Str → Str → List Str
  | false, [], acc => [acc]
  | false, c :: r, acc =>
    if isWs c then acc :: splitWsAux true r []
    else splitWsAux false r (acc ++ [c])
  | true, [], _ => [[]]
  | true, c :: r, _ =>
    if isWs c then splitWsAux true r []
    else splitWsAux false r [c]

/-- Model of `s.split(/\s+/)`. -/
def splitWsJs (s : Str) : List Str := splitWsAux false s []

/-- Model of `tokenize`: lower-case, replace every character outside
`[\w\s]` by a space, split on whitespace, keep tokens longer than one
character, cap at 1000. -/
def tokenize (text : Str) : List Str :=
  let replaced := (lowerStr text).map
    (fun c => if isPyIdentChar c ∨ isWs c then c else ' ')
  ((splitWsJs replaced).filter (fun w => 1 < w.length)).take 1000

/-- One `Map` update of the word-frequency loop (insertion order kept, as
a JavaScript `Map` does). -/
def bumpCount : List (Str × ℕ) → Str → List (Str × ℕ)
  | [], w => [(w, 1)]
  | (k, n) :: rest, w =>
    if k = w then (k, n + 1) :: rest else (k, n) :: bumpCount rest w

/-- The word-frequency map of `generateLocalEmbedding`. -/
def wordCounts (ws : List Str) : List (Str × ℕ) := ws.foldl bumpCount []

/-- Wrap to a signed 32-bit integer (the `| 0`-style coercion done by the
bitwise operators). -/
def toInt32 (z : ℤ) : ℤ :=
  let m := ((z % 4294967296) + 4294967296) % 4294967296
  if m < 2147483648 then m else m - 4294967296

/-- One step of `hashString`: `hash = ((hash << 5) - hash) + char` followed
by `hash = hash & hash` (the int32 wrap). -/
def hashStep (h : ℤ) (c : Char) : ℤ :=
  toInt32 (toInt32 (h * 32) - h + c.toNat)

/-- Model of `hashString` (`Math.abs` of the folded 32-bit hash). -/
def hashString (s : Str) : ℕ := (s.foldl hashStep 0).natAbs

/-- Scatter of one word into the embedding: three hash-derived positions
receive `log(1 + count) * sin(hash * (i + 1))`. -/
def scatterWord (logF sinF : ℚ → ℚ) (dim : ℕ) (emb : List ℚ) (w : Str)
    (count : ℕ) : List ℚ :=
  let hash := hashString w
  (List.range 3).foldl (fun e i =>
    let index := (hash + i * 17) % dim
    let value := logF (1 + (count : ℚ)) * sinF ((hash : ℚ) * ((i : ℚ) + 1))
    e.set index (e.getD index 0 + value)) emb

/-- Model of `generateLocalEmbedding`: tokenize, count, scatter through the
hash, then L2-normalize when the norm is positive. -/
def generateLocalEmbedding (logF sinF sqrtF : ℚ → ℚ) (dimOpt : Option ℕ)
    (text : Str) : List ℚ :=
  let dim := dimensionsOf dimOpt
  let wc := wordCounts (tokenize text)
  let emb := wc.foldl (fun e p => scatterWord logF sinF dim e p.1 p.2)
    (List.replicate dim (0 : ℚ))
  let norm := sqrtF (emb.foldl (fun s v => s + v * v) 0)
  if 0 < norm then emb.map (fun v => v / norm) else emb

/-- Model of the static `cosineSimilarity`: `0` on mismatched lengths,
`0` when either accumulated squared norm is zero, otherwise the normalized
dot product. -/
def cosineSimilarity (sqrtF : ℚ → ℚ) (a b : List ℚ) : ℚ :=
  if ¬ a.length = b.length then 0
  else
    let dotProduct := (a.zip b).foldl (fun s p => s + p.1 * p.2) 0
    let normA := a.foldl (fun s v => s + v * v) 0
    let normB := b.foldl (fun s v => s + v * v) 0
    if normA = 0 ∨ normB = 0 then 0
    else dotProduct / (sqrtF normA * sqrtF normB)

end EmbeddingGenerator

/-! ## Indexing pipeline (`src/indexer/CodeIndexer.ts`)

File-system paths are lists of segments; `pathRelative` models Node's
`path.relative` on already-resolved absolute paths.  SHA-256 and the
embedding provider enter as the function parameters `hashF` and `embedF`. -/

/-- Absolute filesystem path, as resolved segments. -/
abbrev FsPath := List Str

/-- Strips the common leading segments of two paths. -/
def dropCommonSeg : FsPath → FsPath → FsPath × FsPath
  | a :: as, b :: bs =>
    if a = b then dropCommonSeg as bs else (a :: as, b :: bs)
  | as, bs => (as, bs)

/-- Model of `path.relative(fromP, toP)` on resolved absolute paths: one
`..` per remaining `fromP` segment, then the remaining `toP` segments. -/
def pathRelative (fromP toP : FsPath) : Str :=
  let (fr, tr) := dropCommonSeg fromP toP
  joinWith '/' (fr.map (fun _ => str "..") ++ tr)

/-- Renders an absolute path (for `detectLanguage`, which only reads the
extension of the final segment). -/
def pathToStr (p : FsPath) : Str := '/' :: joinWith '/' p

namespace CodeIndexer

/-- One chunk produced by `splitIntoChunks` (its `symbolId` is declared but
never assigned in the source, hence always absent). -/
structure Chunk where
  content : Str
  startLine : ℕ
  endLine : ℕ
  type : Str
  symbolId : Option ℕ
  deriving DecidableEq, Repr

/-- Line loop of `splitIntoChunks`: `cur` is the chunk under construction,
`startL` its first 1-based line, `curL` the 1-based number of the line
being visited. -/
def chunksAux (maxChunkSize : ℕ) : List Str → Str → ℕ → ℕ → List Chunk
  | [], cur, startL, curL =>
    if jsTrim cur ≠ [] then [⟨jsTrim cur, startL, curL - 1, str "code", none⟩]
    else []
  | line :: rest, cur, startL, curL =>
    if maxChunkSize < cur.length + line.length ∧ 0 < cur.length then
      ⟨jsTrim cur, startL, curL - 1, str "code", none⟩ ::
        chunksAux maxChunkSize rest line curL (curL + 1)
    else
      chunksAux maxChunkSize rest
        (cur ++ (if cur ≠ [] then '\n' :: line else line)) startL (curL + 1)

/-- Model of `splitIntoChunks` (`maxChunkSize = 500` characters; the
length check counts `currentChunk.length + line.length`, not the joining
newline). -/
def splitIntoChunks (content : Str) : List Chunk :=
  chunksAux 500 (splitLines content) [] 1 1

/-- Model of `generateFileEmbeddings`: one embedding row per chunk, with
`chunkIndex = i` in chunk order and the chunk's line range as metadata. -/
def generateFileEmbeddings (embedF : Str → List ℚ) (db : Database)
    (fileId : ℕ) (content language : Str) : Database :=
  (splitIntoChunks content).enum.foldl (fun d ic =>
    (DatabaseManager.insertEmbedding d
      ⟨fileId, ic.2.symbolId, ic.1, ic.2.content, embedF ic.2.content,
       ⟨language, ic.2.startLine, ic.2.endLine, ic.2.type⟩⟩).1) db

/-- Model of `indexFile`: read/hash/detect, upsert the File row, clear the
three dependent sets, reinsert symbols and dependencies when the language
is supported (resolving each import path with `getFile` against the
current table), then embed the chunks. -/
def indexFile (embedF : Str → List ℚ) (hashF : Str → Str) (now : ℤ)
    (db : Database) (repoPath fileAbs : FsPath) (content : Str) (size : ℕ)
    (mtime : ℤ) : Database :=
  let relativePath := pathRelative repoPath fileAbs
  let language := LanguageParser.detectLanguage (pathToStr fileAbs)
  let ins := DatabaseManager.insertFile db now
    ⟨relativePath, content, hashF content, size, language, mtime⟩
  let fileId := ins.2
  let db4 := DatabaseManager.clearEmbeddingsByFile
    (DatabaseManager.clearDependenciesByFile
      (DatabaseManager.clearSymbolsByFile ins.1 fileId) fileId) fileId
  let db7 :=
    if LanguageParser.isSupported language then
      let symbols := LanguageParser.parseSymbols (some content) language
      let db5 := symbols.foldl (fun d s =>
        (DatabaseManager.insertSymbol d ⟨fileId, s.name, s.type, s.startLine,
          s.endLine, s.startColumn, s.endColumn, s.definition, s.docstring,
          s.modifiers⟩).1) db4
      let deps := (LanguageParser.parseDependencies (some content) language
        relativePath).getD []
      deps.foldl (fun d dep =>
        let target := DatabaseManager.getFile d dep.importPath
        (DatabaseManager.insertDependency d ⟨fileId, target.map (fun f => f.id),
          dep.importPath, dep.importType, dep.isExternal, dep.symbols⟩).1) db5
    else db4
  generateFileEmbeddings embedF db7 fileId content language

/-- Model of `shouldProcessFile`: `force` wins; very large files are
skipped; otherwise the file row looked up under the path relative to the
process working directory decides — not newer than the recorded
`lastModified` means skip. -/
def shouldProcessFile (cwd : FsPath) (db : Database) (fileAbs : FsPath)
    (size : ℕ) (mtime : ℤ) (force : Bool) : Bool :=
  if force then true
  else if 1048576 < size then false
  else
    match DatabaseManager.getFile db (pathRelative cwd fileAbs) with
    | some existing => if mtime ≤ existing.lastModified then false else true
    | none => true

/-- One candidate-file step of the `indexRepository` loop: process the
file through `indexFile` when `shouldProcessFile` says so, otherwise leave
the store untouched (the `skipped` counter path). -/
def scanStep (embedF : Str → List ℚ) (hashF : Str → Str) (now : ℤ)
    (cwd repoPath fileAbs : FsPath) (content : Str) (size : ℕ) (mtime : ℤ)
    (force : Bool) (db : Database) : Database :=
  if shouldProcessFile cwd db fileAbs size mtime force then
    indexFile embedF hashF now db repoPath fileAbs content size mtime
  else db

end CodeIndexer


/-! ## Retrieval engine (`src/search/SearchEngine.ts`)

`searchCode` receives the query vector directly (the source obtains it
from the embedding provider); `sqrtF` stands for `Math.sqrt` as before.
The usage scanner of `getReferences` models
`new RegExp('\\b' + name + '\\b', 'g')` for names made of word
characters, which is what the engine receives. -/

namespace SearchEngine

/-- Search hit, mirroring the `SearchResult` interface. -/
structure SearchResult where
  file : FileRecord
  symbol : Option SymbolRecord
  score : ℚ
  snippet : Str
  line : ℕ
  matchSpans : List (ℕ × ℕ × Str)
  deriving DecidableEq

/-- Reference hit, mirroring the `ReferenceResult` interface. -/
structure ReferenceResult where
  file : FileRecord
  line : ℕ
  column : ℤ
  context : Str
  type : Str
  deriving DecidableEq, Repr

/-- The private `cosineSimilarity` of `SearchEngine` (same body as the
static one on `EmbeddingGenerator`). -/
def cosineSimilarity (sqrtF : ℚ → ℚ) (a b : List ℚ) : ℚ :=
  if ¬ a.length = b.length then 0
  else
    let dotProduct := (a.zip b).foldl (fun s p => s + p.1 * p.2) 0
    let normA := a.foldl (fun s v => s + v * v) 0
    let normB := b.foldl (fun s v => s + v * v) 0
    if normA = 0 ∨ normB = 0 then 0
    else dotProduct / (sqrtF normA * sqrtF normB)

/-- Model of `getFileExtension`. -/
def getFileExtension (filePath : Str) : Str :=
  let parts := splitOnChar '.' filePath
  if 1 < parts.length then '.' :: (parts.getLast?).getD [] else []

/-- The `files.find(f => f.id === id)` lookup used throughout the engine
(the per-call `Map` cache only memoizes this lookup). -/
def resolveFile (db : Database) (fileId : ℕ) : Option FileRecord :=
  (DatabaseManager.getAllFiles db).find? (fun f => f.id = fileId)

/-- Occurrence positions of `indexOf` restarted at `index + 1`
(`findMatches` allows overlapping hits). -/
def occIdx (w : Str) : Str → ℕ → List ℕ
  | [], _ => []
  | c :: r, k =>
    if w.isPrefixOf (c :: r) then k :: occIdx w r (k + 1)
    else occIdx w r (k + 1)

/-- Model of `findMatches`: lower-cased whole-query words of length at
least two, located by `indexOf`, sorted by start offset. -/
def findMatches (query content : Str) : List (ℕ × ℕ × Str) :=
  let queryWords := EmbeddingGenerator.splitWsJs (lowerStr query)
  let contentLower := lowerStr content
  (queryWords.flatMap (fun word =>
    if word.length < 2 then []
    else (occIdx word contentLower 0).map (fun idx =>
      (idx, idx + word.length, (content.drop idx).take word.length)))
    ).insertionSort (fun a b => a.1 ≤ b.1)

/-- Extension filter of the result loop (`continue` when a nonempty
extension list does not contain the file's extension). -/
def extSkip (fileExtensions : Option (List Str)) (f : FileRecord) : Bool :=
  match fileExtensions with
  | some exts => if exts ≠ [] then ¬ getFileExtension f.path ∈ exts else false
  | none => false

/-- Result-building loop of `searchCode`: resolve the owning file, apply
the extension filter, resolve the symbol for symbol-scoped chunks, attach
snippet/line/matches, and break once `limit` results are collected. -/
def buildResults (db : Database) (limit : ℕ) (fileExtensions : Option (List Str))
    (query : Str) : List (EmbeddingRecord × ℚ) → List SearchResult → List SearchResult
  | [], acc => acc
  | (e, score) :: rest, acc =>
    match resolveFile db e.fileId with
    | none => buildResults db limit fileExtensions query rest acc
    | some file =>
      if extSkip fileExtensions file then
        buildResults db limit fileExtensions query rest acc
      else
        let symbol := match e.symbolId with
          | some sid =>
            if sid = 0 then none
            else (DatabaseManager.getSymbolsByFile db e.fileId).find?
              (fun s => s.id = sid)
          | none => none
        let snippet := e.content.take 200 ++
          (if 200 < e.content.length then str "..." else [])
        let r : SearchResult := ⟨file, symbol, score, snippet,
          jsOrNat e.metadata.startLine 1, findMatches query e.content⟩
        let acc2 := acc ++ [r]
        if limit ≤ acc2.length then acc2
        else buildResults db limit fileExtensions query rest acc2

/-- Model of `searchCode`: similarity against every stored embedding,
threshold filter, stable sort by descending score, candidate cut at
`limit * 2`, then the result-building loop. -/
def searchCode (sqrtF : ℚ → ℚ) (queryEmbedding : List ℚ) (db : Database)
    (query : Str) (limit : ℕ) (fileExtensions : Option (List Str))
    (threshold : ℚ) : List SearchResult :=
  let embeddings := DatabaseManager.getAllEmbeddings db
  let similarities := embeddings.map (fun e =>
    (e, cosineSimilarity sqrtF queryEmbedding e.embedding))
  let filtered :=
    (((similarities.filter (fun p => threshold ≤ p.2)).insertionSort
        (fun a b => b.2 ≤ a.2)).take (limit * 2))
  buildResults db limit fileExtensions query filtered []

/-- Non-overlapping whole-word occurrences of `w`, as the global
word-boundary regex of `getReferences` finds them (`lastIndex` advances
to each match end; `skip` counts positions still inside the last match). -/
def wordOccAux (w : Str) : Option Char → ℕ → Str → ℕ → List ℕ
  | _, _, [], _ => []
  | prev, skip + 1, c :: r, k => wordOccAux w (some c) skip r (k + 1)
  | prev, 0, c :: r, k =>
    let okBefore : Bool := match prev with
      | none => true
      | some p => ! isPyIdentChar p
    let okAfter : Bool := match (c :: r).drop w.length with
      | [] => true
      | d :: _ => ! isPyIdentChar d
    if w ≠ [] ∧ w.isPrefixOf (c :: r) ∧ okBefore ∧ okAfter then
      k :: wordOccAux w (some c) (w.length - 1) r (k + 1)
    else wordOccAux w (some c) 0 r (k + 1)

/-- All whole-word occurrence columns of `w` in `line` (0-based). -/
def wordOcc (w line : Str) : List ℕ := wordOccAux w none 0 line 0

/-- Model of `getReferences`: definition rows for every symbol of that
name (restricted to `filePath` when given), then textual whole-word
usages over every indexed file, skipping any occurrence on a line inside
a matching definition's span in that file. -/
def getReferences (db : Database) (symbolName : Str) (filePath : Option Str) :
    List ReferenceResult :=
  let symbols := DatabaseManager.findSymbolsByName db symbolName none
  let defs := symbols.flatMap (fun s =>
    match resolveFile db s.fileId with
    | none => []
    | some file =>
      let pathSkip : Bool := match filePath with
        | some fp => decide (¬ file.path = fp)
        | none => false
      if pathSkip then []
      else
        [⟨file, s.startLine, s.startColumn,
          s.definition.take 100 ++
            (if 100 < s.definition.length then str "..." else []),
          str "definition"⟩])
  let allFiles := DatabaseManager.getAllFiles db
  let usages := allFiles.flatMap (fun file =>
    let lines := splitLines file.content
    (List.range lines.length).flatMap (fun li =>
      let line := lines.getD li []
      (wordOcc symbolName line).flatMap (fun col =>
        let isDefinition := symbols.any (fun s =>
          s.fileId = file.id ∧ s.startLine ≤ li + 1 ∧ li + 1 ≤ s.endLine)
        if ¬ isDefinition then
          [⟨file, li + 1, (col : ℤ) + 1, jsTrim line, str "usage"⟩]
        else [])))
  defs ++ usages

end SearchEngine


/-! ## Theorems -/

/-- Store populated with one indexed file owning one symbol, one
embedding and one dependency, used to exhibit the cascade failure. -/
def dbCascade : Database :=
  ⟨[⟨1, str "a.ts", str "x", str "h", 1, str "typescript", 0, 0⟩],
   [⟨1, 1, str "foo", str "function", 1, 1, 1, 2, str "function foo()",
     none, []⟩],
   [⟨1, 1, none, 0, str "x", [], ⟨str "typescript", 1, 1, str "code"⟩⟩],
   [⟨1, 1, none, str "react", str "import", true, []⟩],
   2, 2, 2, 2⟩

/-- C1: the claim says `deleteFile` removes the file's Symbol, Embedding
and Dependency rows and the three queries then return empty.  The schema
declares `ON DELETE CASCADE`, but the connection never runs
`PRAGMA foreign_keys = ON`, so the delete the code issues removes only
the `files` row: on a store holding one file (id 1) with one symbol, one
embedding and one dependency, all three queries still return their row
after `deleteFile('a.ts')` — while the cascade the schema intends
(`deleteFileCascading`) would empty them.  This contradicts both the
specification and the schema's own declaration: a code bug. -/
theorem deleteFile_does_not_cascade :
    DatabaseManager.getFile (DatabaseManager.deleteFile dbCascade (str "a.ts"))
      (str "a.ts") = none ∧
    ¬ DatabaseManager.getSymbolsByFile
      (DatabaseManager.deleteFile dbCascade (str "a.ts")) 1 = [] ∧
    ¬ DatabaseManager.getEmbeddingsByFile
      (DatabaseManager.deleteFile dbCascade (str "a.ts")) 1 = [] ∧
    ¬ DatabaseManager.getDependenciesByFile
      (DatabaseManager.deleteFile dbCascade (str "a.ts")) 1 = [] ∧
    DatabaseManager.getSymbolsByFile
      (DatabaseManager.deleteFileCascading dbCascade (str "a.ts")) 1 = [] ∧
    DatabaseManager.getEmbeddingsByFile
      (DatabaseManager.deleteFileCascading dbCascade (str "a.ts")) 1 = [] ∧
    DatabaseManager.getDependenciesByFile
      (DatabaseManager.deleteFileCascading dbCascade (str "a.ts")) 1 = [] := by
  decide

/-- C4 (amended): `parseSymbols` is total on empty and null content;
`parseDependencies` yields the empty list on empty content for every
language tag and on null content only for languages without a dependency
parser — for javascript/typescript/python/java it dereferences the null
content and throws. -/
theorem parse_empty_and_null (language filePath : Str) :
    LanguageParser.parseSymbols none language = [] ∧
    LanguageParser.parseSymbols (some []) language = [] ∧
    LanguageParser.parseDependencies (some []) language filePath = some [] ∧
    ((¬ language = str "javascript" ∧ ¬ language = str "typescript" ∧
      ¬ language = str "python" ∧ ¬ language = str "java") →
      LanguageParser.parseDependencies none language filePath = some []) ∧
    (language = str "javascript" ∨ language = str "typescript" ∨
      language = str "python" ∨ language = str "java" →
      LanguageParser.parseDependencies none language filePath = none) := by
  refine ⟨rfl, by simp [LanguageParser.parseSymbols], ?_, ?_, ?_⟩
  · simp only [LanguageParser.parseDependencies]
    split_ifs <;> simp <;> decide
  · intro h
    simp [LanguageParser.parseDependencies, h.1, h.2.1, h.2.2.1, h.2.2.2]
  · intro h
    rcases h with h | h | h | h <;> subst h <;> rfl

/-- Witness for C4's amended theorem: the `ruby` tag has no dependency
parser, so even null content yields an empty dependency list. -/
theorem parse_empty_and_null_witness :
    (¬ str "ruby" = str "javascript" ∧ ¬ str "ruby" = str "typescript" ∧
      ¬ str "ruby" = str "python" ∧ ¬ str "ruby" = str "java") ∧
    LanguageParser.parseDependencies none (str "ruby") (str "x.rb") = some [] :=
  ⟨by decide, (parse_empty_and_null (str "ruby") (str "x.rb")).2.2.2.1 (by decide)⟩

/-- C4 counterexample: the claim as stated is false — on null content with
a supported language, `parseDependencies` does not return the empty list
but dereferences the null (`content.split` throws a `TypeError`, modelled
as `none`). -/
theorem parseDependencies_null_throws :
    ¬ LanguageParser.parseDependencies none (str "javascript") (str "a.js") =
      some [] ∧
    LanguageParser.parseDependencies none (str "javascript") (str "a.js") =
      none := by
  decide


/-- The triple hash scatter leaves the vector length unchanged. -/
lemma scatterWord_length (logF sinF : ℚ → ℚ) (dim : ℕ) (e : List ℚ)
    (w : Str) (count : ℕ) :
    (EmbeddingGenerator.scatterWord logF sinF dim e w count).length = e.length := by
  have h3 : List.range 3 = [0, 1, 2] := rfl
  simp [EmbeddingGenerator.scatterWord, h3, List.foldl]

/-- The whole word-count fold leaves the vector length unchanged. -/
lemma scatterFold_length (logF sinF : ℚ → ℚ) (dim : ℕ) :
    ∀ (wc : List (Str × ℕ)) (e : List ℚ),
      (wc.foldl (fun e p => EmbeddingGenerator.scatterWord logF sinF dim e p.1 p.2)
        e).length = e.length := by
  intro wc
  induction wc with
  | nil => intro e; rfl
  | cons p t ih =>
    intro e
    simp only [List.foldl]
    rw [ih, scatterWord_length]

/-- C8: the local fallback embedding is a pure function — two calls on the
same text are the same term, hence bit-identical for any valuation of the
deterministic IEEE-754 primitives `logF`, `sinF`, `sqrtF` — and its
result always has exactly the configured fixed length. -/
theorem generateLocalEmbedding_deterministic (logF sinF sqrtF : ℚ → ℚ)
    (dimOpt : Option ℕ) (text : Str) :
    EmbeddingGenerator.generateLocalEmbedding logF sinF sqrtF dimOpt text =
      EmbeddingGenerator.generateLocalEmbedding logF sinF sqrtF dimOpt text ∧
    (EmbeddingGenerator.generateLocalEmbedding logF sinF sqrtF dimOpt text).length =
      EmbeddingGenerator.dimensionsOf dimOpt := by
  refine ⟨rfl, ?_⟩
  simp only [EmbeddingGenerator.generateLocalEmbedding]
  split
  · rw [List.length_map, scatterFold_length, List.length_replicate]
  · rw [scatterFold_length, List.length_replicate]

/-- C9: both `cosineSimilarity` implementations are total with explicit
zero returns — mismatched lengths yield `0`, and equal-length vectors
yield `0` whenever either accumulated squared norm is zero, so the
division (the only possible NaN source) is never reached there. -/
theorem cosineSimilarity_zero_guards (sqrtF : ℚ → ℚ) (a b : List ℚ) :
    (¬ a.length = b.length →
      EmbeddingGenerator.cosineSimilarity sqrtF a b = 0 ∧
      SearchEngine.cosineSimilarity sqrtF a b = 0) ∧
    ((a.foldl (fun s v => s + v * v) 0 = 0 ∨
      b.foldl (fun s v => s + v * v) 0 = 0) →
      EmbeddingGenerator.cosineSimilarity sqrtF a b = 0 ∧
      SearchEngine.cosineSimilarity sqrtF a b = 0) := by
  constructor
  · intro h
    constructor <;> simp [EmbeddingGenerator.cosineSimilarity,
      SearchEngine.cosineSimilarity, h]
  · intro h
    by_cases hl : a.length = b.length
    · constructor <;>
        simp [EmbeddingGenerator.cosineSimilarity,
          SearchEngine.cosineSimilarity, hl, h]
    · constructor <;>
        simp [EmbeddingGenerator.cosineSimilarity,
          SearchEngine.cosineSimilarity, hl]

/-- Witness for C9: a length mismatch and a zero-norm pair, each
evaluating to similarity `0` through the guards. -/
theorem cosineSimilarity_zero_guards_witness :
    (¬ [(1 : ℚ)].length = [(1 : ℚ), 2].length ∧
      EmbeddingGenerator.cosineSimilarity id [(1 : ℚ)] [(1 : ℚ), 2] = 0) ∧
    ([(0 : ℚ), 0].foldl (fun s v => s + v * v) 0 = 0 ∧
      SearchEngine.cosineSimilarity id [(0 : ℚ), 0] [(1 : ℚ), 2] = 0) := by
  have h1 : ¬ [(1 : ℚ)].length = [(1 : ℚ), 2].length := by simp
  have h2 : [(0 : ℚ), 0].foldl (fun s v => s + v * v) 0 = 0 := by
    simp [List.foldl]
  exact ⟨⟨h1, ((cosineSimilarity_zero_guards id [(1 : ℚ)] [(1 : ℚ), 2]).1 h1).1⟩,
    ⟨h2, ((cosineSimilarity_zero_guards id [(0 : ℚ), 0] [(1 : ℚ), 2]).2
      (Or.inl h2)).2⟩⟩


/-- `findEndLineAux` never answers below `start + 1`. -/
lemma findEndLineAux_ge (openC closeC : Char) :
    ∀ (ls : List Str) (idx : ℕ) (d : ℤ) (f : Bool) (start : ℕ),
      start ≤ idx →
      start + 1 ≤ LanguageParser.findEndLineAux openC closeC ls idx d f start := by
  intro ls
  induction ls with
  | nil =>
    intro idx d f start _
    simp [LanguageParser.findEndLineAux]
  | cons l rest ih =>
    intro idx d f start h
    simp only [LanguageParser.findEndLineAux]
    cases hscan : LanguageParser.lineScan openC closeC l d f with
    | error u => simp; omega
    | ok p => exact ih (idx + 1) p.1 p.2 start (le_trans h (Nat.le_succ idx))

/-- `findEndLine` answers at or after the declaration line. -/
lemma findEndLine_ge (lines : List Str) (startIndex : ℕ) (openC closeC : Char) :
    startIndex + 1 ≤ LanguageParser.findEndLine lines startIndex openC closeC :=
  findEndLineAux_ge openC closeC _ startIndex 0 false startIndex le_rfl

/-- The python block-end scan never answers below `min i total`. -/
lemma findPythonBlockEndGo_ge (b : ℕ) :
    ∀ (ls : List Str) (i total : ℕ),
      min i total ≤ LanguageParser.findPythonBlockEndGo b ls i total := by
  intro ls
  induction ls with
  | nil =>
    intro i total
    simp only [LanguageParser.findPythonBlockEndGo]
    omega
  | cons l rest ih =>
    intro i total
    simp only [LanguageParser.findPythonBlockEndGo]
    split
    · have := ih (i + 1) total
      omega
    · split
      · omega
      · have := ih (i + 1) total
        omega

/-- `findPythonBlockEnd` answers at or after the declaration line when the
declaration line exists. -/
lemma findPythonBlockEnd_ge (lines : List Str) (i b : ℕ)
    (hi : i < lines.length) :
    i + 1 ≤ LanguageParser.findPythonBlockEnd lines i b := by
  have := findPythonBlockEndGo_ge b (lines.drop (i + 1)) (i + 1) lines.length
  unfold LanguageParser.findPythonBlockEnd
  omega

/-- The `|| lineNumber` fallback keeps any lower bound shared by both
alternatives. -/
lemma jsOrNat_ge {k v d : ℕ} (hv : k ≤ v) (hd : k ≤ d) : k ≤ jsOrNat v d := by
  unfold jsOrNat
  split <;> assumption

/-- Every symbol emitted for line `i` of a JavaScript/TypeScript file
starts at line `i + 1` and ends no earlier. -/
lemma jsLineSymbols_span (lines : List Str) (i : ℕ)
    (s : LanguageParser.ParsedSymbol)
    (h : s ∈ LanguageParser.jsLineSymbols lines i) :
    s.startLine = i + 1 ∧ s.startLine ≤ s.endLine := by
  have hfe := findEndLine_ge lines i '{' '}'
  simp only [LanguageParser.jsLineSymbols, List.mem_append] at h
  rcases h with ((((((h | h) | h) | h) | h) | h) | h) <;>
    (repeat' split at h) <;>
    simp_all <;>
    (try subst h) <;>
    simp_all [jsOrNat_ge hfe (le_refl (i + 1))]


/-- Every symbol emitted for line `i` of a Python file starts at line
`i + 1` and ends no earlier. -/
lemma pyLineSymbols_span (lines : List Str) (i : ℕ) (hi : i < lines.length)
    (s : LanguageParser.ParsedSymbol)
    (h : s ∈ LanguageParser.pyLineSymbols lines i) :
    s.startLine = i + 1 ∧ s.startLine ≤ s.endLine := by
  have hpy : ∀ b, i + 1 ≤ LanguageParser.findPythonBlockEnd lines i b :=
    fun b => findPythonBlockEnd_ge lines i b hi
  simp only [LanguageParser.pyLineSymbols, List.mem_append] at h
  rcases h with (h | h) | h <;>
    (repeat' split at h) <;>
    simp_all

/-- Every symbol emitted for line `i` of a Java file starts at line
`i + 1` and ends no earlier. -/
lemma javaLineSymbols_span (lines : List Str) (i : ℕ)
    (s : LanguageParser.ParsedSymbol)
    (h : s ∈ LanguageParser.javaLineSymbols lines i) :
    s.startLine = i + 1 ∧ s.startLine ≤ s.endLine := by
  have hfe := findEndLine_ge lines i '{' '}'
  simp only [LanguageParser.javaLineSymbols, List.mem_append] at h
  rcases h with (h | h) | h <;>
    (repeat' split at h) <;>
    simp_all

/-- Every symbol emitted for line `i` of a C/C++ file starts at line
`i + 1` and ends no earlier. -/
lemma cppLineSymbols_span (lines : List Str) (i : ℕ)
    (s : LanguageParser.ParsedSymbol)
    (h : s ∈ LanguageParser.cppLineSymbols lines i) :
    s.startLine = i + 1 ∧ s.startLine ≤ s.endLine := by
  have hfe := findEndLine_ge lines i '{' '}'
  simp only [LanguageParser.cppLineSymbols, List.mem_append] at h
  rcases h with (h | h) | h <;>
    (repeat' split at h) <;>
    simp_all <;>
    simp_all [jsOrNat_ge hfe (le_refl (i + 1))]

/-- C10: every symbol produced by `parseSymbols`, for every language tag
and every input text (null included), has a well-formed span: its
`startLine` is at least 1 and its `endLine` is at least its `startLine`,
even when no matching close brace or dedent exists (`findEndLine` then
answers `startIndex + 1` and `findPythonBlockEnd` at worst the file
length, both at or after the declaration line). -/
theorem parseSymbols_span_wellformed (content : Option Str) (language : Str)
    (s : LanguageParser.ParsedSymbol)
    (h : s ∈ LanguageParser.parseSymbols content language) :
    1 ≤ s.startLine ∧ s.startLine ≤ s.endLine := by
  match content with
  | none => simp [LanguageParser.parseSymbols] at h
  | some c =>
    simp only [LanguageParser.parseSymbols] at h
    split at h
    · simp at h
    · split at h
      · simp only [LanguageParser.parseJavaScriptSymbols,
          List.mem_flatMap, List.mem_range] at h
        obtain ⟨i, _, hmem⟩ := h
        have := jsLineSymbols_span _ i s hmem
        omega
      · split at h
        · simp only [LanguageParser.parsePythonSymbols,
            List.mem_flatMap, List.mem_range] at h
          obtain ⟨i, hi, hmem⟩ := h
          have := pyLineSymbols_span _ i hi s hmem
          omega
        · split at h
          · simp only [LanguageParser.parseJavaSymbols,
              List.mem_flatMap, List.mem_range] at h
            obtain ⟨i, _, hmem⟩ := h
            have := javaLineSymbols_span _ i s hmem
            omega
          · split at h
            · simp only [LanguageParser.parseCppSymbols,
                List.mem_flatMap, List.mem_range] at h
              obtain ⟨i, _, hmem⟩ := h
              have := cppLineSymbols_span _ i s hmem
              omega
            · simp at h

/-- A symbol extracted from a file whose close brace is missing, to
instantiate C10's theorem. -/
def truncatedClassSymbol : LanguageParser.ParsedSymbol :=
  ⟨str "Broken", str "class", 1, 1, 1, 15, str "class Broken \x7b", none, []⟩

/-- Witness for C10: a class whose brace is never closed still gets the
well-formed span `1..1`. -/
theorem parseSymbols_span_wellformed_witness :
    truncatedClassSymbol ∈
      LanguageParser.parseSymbols (some (str "class Broken \x7b"))
        (str "typescript") ∧
    1 ≤ truncatedClassSymbol.startLine ∧
    truncatedClassSymbol.startLine ≤ truncatedClassSymbol.endLine :=
  ⟨by decide,
   parseSymbols_span_wellformed (some (str "class Broken \x7b"))
     (str "typescript") truncatedClassSymbol (by decide)⟩


/-- Trimming never lengthens a string. -/
lemma jsTrim_length_le (s : Str) : (jsTrim s).length ≤ s.length := by
  unfold jsTrim
  calc (((s.dropWhile isWs).reverse.dropWhile isWs).reverse).length
      = ((s.dropWhile isWs).reverse.dropWhile isWs).length := by
        rw [List.length_reverse]
    _ ≤ (s.dropWhile isWs).reverse.length := (List.dropWhile_sublist _).length_le
    _ = (s.dropWhile isWs).length := by rw [List.length_reverse]
    _ ≤ s.length := (List.dropWhile_sublist _).length_le

/-- Invariant of the chunking loop: the produced chunks chain line ranges
contiguously from `startL`, stay inside the remaining line budget, and
each chunk's content is bounded by `max + 1` characters unless it is the
trim of a single line of the ambient file `L`. -/
lemma chunksAux_spec (max : ℕ) (L : List Str) :
    ∀ (ls : List Str) (cur : Str) (startL curL : ℕ),
      ls ⊆ L →
      (cur.length ≤ max + 1 ∨ cur ∈ L) →
      1 ≤ curL → startL ≤ curL → (cur ≠ [] → startL < curL) →
      List.Chain' (fun a b => b.startLine = a.endLine + 1)
        (CodeIndexer.chunksAux max ls cur startL curL) ∧
      (∀ c0, (CodeIndexer.chunksAux max ls cur startL curL).head? = some c0 →
        c0.startLine = startL) ∧
      (∀ c ∈ CodeIndexer.chunksAux max ls cur startL curL,
        startL ≤ c.startLine ∧ c.startLine ≤ c.endLine ∧
          c.endLine ≤ curL - 1 + ls.length) ∧
      (∀ c ∈ CodeIndexer.chunksAux max ls cur startL curL,
        c.content.length ≤ max + 1 ∨ ∃ l ∈ L, c.content = jsTrim l) := by
  intro ls
  induction ls with
  | nil =>
    intro cur startL curL _ hcur h1 hsc hne
    simp only [CodeIndexer.chunksAux]
    split
    · rename_i hpush
      have hcne : cur ≠ [] := by
        intro he
        simp [he, jsTrim] at hpush
      have hlt := hne hcne
      refine ⟨List.chain'_singleton _, ?_, ?_, ?_⟩
      · intro c0 hc0
        simp at hc0
        simp [← hc0]
      · intro c hc
        simp at hc
        subst hc
        simp
        omega
      · intro c hc
        simp at hc
        subst hc
        rcases hcur with hlen | hmem
        · exact Or.inl (le_trans (jsTrim_length_le cur) hlen)
        · exact Or.inr ⟨cur, hmem, rfl⟩
    · simp
  | cons line rest ih =>
    intro cur startL curL hsub hcur h1 hsc hne
    have hline : line ∈ L := hsub (List.mem_cons_self line rest)
    have hrest : rest ⊆ L := fun x hx => hsub (List.mem_cons_of_mem line hx)
    simp only [CodeIndexer.chunksAux]
    split
    · rename_i hflush
      have hcne : cur ≠ [] := by
        intro he
        simp [he] at hflush
      have hlt := hne hcne
      obtain ⟨ihChain, ihHead, ihBounds, ihLen⟩ :=
        ih line curL (curL + 1) hrest (Or.inr hline) (by omega) (by omega)
          (fun _ => by omega)
      refine ⟨?_, ?_, ?_, ?_⟩
      · rw [List.chain'_cons']
        refine ⟨?_, ihChain⟩
        intro y hy
        rw [ihHead y hy]
        simp
        omega
      · intro c0 hc0
        simp at hc0
        simp [← hc0]
      · intro c hc
        rcases List.mem_cons.mp hc with hc | hc
        · subst hc
          simp
          omega
        · obtain ⟨hb1, hb2, hb3⟩ := ihBounds c hc
          refine ⟨by omega, hb2, ?_⟩
          simp only [List.length_cons]
          omega
      · intro c hc
        rcases List.mem_cons.mp hc with hc | hc
        · subst hc
          rcases hcur with hlen | hmem
          · exact Or.inl (le_trans (jsTrim_length_le cur) hlen)
          · exact Or.inr ⟨cur, hmem, rfl⟩
        · exact ihLen c hc
    · rename_i hnoflush
      have hnew : (cur ++ (if cur ≠ [] then '\n' :: line else line)).length ≤ max + 1 ∨
          (cur ++ (if cur ≠ [] then '\n' :: line else line)) ∈ L := by
        by_cases hce : cur = []
        · subst hce
          simp [hline]
        · left
          have hle : cur.length + line.length ≤ max := by
            by_contra hgt
            exact hnoflush ⟨by omega, List.length_pos.mpr hce⟩
          simp [hce, List.length_append]
          omega
      obtain ⟨ihChain, ihHead, ihBounds, ihLen⟩ :=
        ih (cur ++ (if cur ≠ [] then '\n' :: line else line)) startL (curL + 1)
          hrest hnew (by omega) (by omega) (fun _ => by omega)
      refine ⟨ihChain, ihHead, ?_, ihLen⟩
      intro c hc
      obtain ⟨hb1, hb2, hb3⟩ := ihBounds c hc
      refine ⟨hb1, hb2, ?_⟩
      simp only [List.length_cons]
      omega


/-- The embedding-insertion fold appends, for the owning file, exactly the
enumerated chunk indices in order. -/
lemma genFold_indices (embedF : Str → List ℚ) (fileId : ℕ) (language : Str) :
    ∀ (l : List (ℕ × CodeIndexer.Chunk)) (db : Database),
      ((l.foldl (fun d ic =>
          (DatabaseManager.insertEmbedding d
            ⟨fileId, ic.2.symbolId, ic.1, ic.2.content, embedF ic.2.content,
             ⟨language, ic.2.startLine, ic.2.endLine, ic.2.type⟩⟩).1) db
        ).embeddings.filter (fun e => e.fileId = fileId)).map
          (fun e => e.chunkIndex) =
      ((db.embeddings.filter (fun e => e.fileId = fileId)).map
          (fun e => e.chunkIndex)) ++ l.map (fun ic => ic.1) := by
  intro l
  induction l with
  | nil => intro db; simp
  | cons ic t iht =>
    intro db
    simp only [List.foldl_cons, List.map_cons]
    rw [iht]
    simp [DatabaseManager.insertEmbedding, List.filter_append]

/-- C6 (amended): chunks are contiguous and line-aligned — ranges chain
from line 1 and stay inside the file — and the stored embeddings carry
chunk indices `0, 1, 2, ...` with no gaps; the 500-character maximum,
however, holds only up to one joining-newline character (the size check
ignores the `\n` added between lines, so a multi-line chunk can reach
501 characters), and a single line longer than the maximum becomes a
chunk of its full length. -/
theorem splitIntoChunks_spec (content : Str) (embedF : Str → List ℚ)
    (db : Database) (fileId : ℕ) (language : Str)
    (hclean : ∀ e ∈ db.embeddings, ¬ e.fileId = fileId) :
    List.Chain' (fun a b => b.startLine = a.endLine + 1)
      (CodeIndexer.splitIntoChunks content) ∧
    (∀ c0, (CodeIndexer.splitIntoChunks content).head? = some c0 →
      c0.startLine = 1) ∧
    (∀ c ∈ CodeIndexer.splitIntoChunks content,
      c.startLine ≤ c.endLine ∧ c.endLine ≤ (splitLines content).length) ∧
    (∀ c ∈ CodeIndexer.splitIntoChunks content,
      c.content.length ≤ 501 ∨ ∃ l ∈ splitLines content, c.content = jsTrim l) ∧
    (DatabaseManager.getEmbeddingsByFile
        (CodeIndexer.generateFileEmbeddings embedF db fileId content language)
        fileId).map (fun e => e.chunkIndex) =
      List.range (CodeIndexer.splitIntoChunks content).length := by
  obtain ⟨hChain, hHead, hBounds, hLen⟩ :=
    chunksAux_spec 500 (splitLines content) (splitLines content) [] 1 1
      (fun x hx => hx) (Or.inl (by simp)) le_rfl le_rfl (fun h => absurd rfl h)
  refine ⟨hChain, hHead, ?_, hLen, ?_⟩
  · intro c hc
    obtain ⟨_, hb2, hb3⟩ := hBounds c hc
    exact ⟨hb2, by omega⟩
  · have hfold := genFold_indices embedF fileId language
      (CodeIndexer.splitIntoChunks content).enum db
    have hnil : db.embeddings.filter (fun e => e.fileId = fileId) = [] := by
      rw [List.filter_eq_nil_iff]
      intro e he
      simpa using hclean e he
    rw [CodeIndexer.generateFileEmbeddings] at *
    have hidx :
        ((((CodeIndexer.splitIntoChunks content).enum.foldl (fun d ic =>
            (DatabaseManager.insertEmbedding d
              ⟨fileId, ic.2.symbolId, ic.1, ic.2.content, embedF ic.2.content,
               ⟨language, ic.2.startLine, ic.2.endLine, ic.2.type⟩⟩).1) db
          ).embeddings.filter (fun e => e.fileId = fileId)).map
            (fun e => e.chunkIndex)) =
          List.range (CodeIndexer.splitIntoChunks content).length := by
      rw [hfold, hnil, List.enum_map_fst]
      simp
    set rows := ((CodeIndexer.splitIntoChunks content).enum.foldl (fun d ic =>
        (DatabaseManager.insertEmbedding d
          ⟨fileId, ic.2.symbolId, ic.1, ic.2.content, embedF ic.2.content,
           ⟨language, ic.2.startLine, ic.2.endLine, ic.2.type⟩⟩).1) db
      ).embeddings.filter (fun e => e.fileId = fileId) with hrows
    have hsorted : List.Sorted (fun a b : EmbeddingRecord =>
        a.chunkIndex ≤ b.chunkIndex) rows := by
      have hpw : List.Pairwise (fun a b : ℕ => a ≤ b)
          (rows.map (fun e => e.chunkIndex)) := by
        rw [hidx]
        exact (List.pairwise_lt_range _).imp le_of_lt
      exact List.pairwise_map.mp hpw
    unfold DatabaseManager.getEmbeddingsByFile
    rw [← hrows, hsorted.insertionSort_eq, hidx]

/-- The two-line input that drives a chunk one character past the bound:
250 characters, a newline, 250 characters. -/
def chunkCexContent : Str :=
  List.replicate 250 'a' ++ '\n' :: List.replicate 250 'b'

set_option maxRecDepth 10000 in
/-- C6 counterexample: the claim's 500-character bound is violated — the
two 250-character lines are joined into a single chunk whose content is
501 characters long, because the size check ignores the newline the join
inserts. -/
theorem splitIntoChunks_over_500 :
    (CodeIndexer.splitIntoChunks chunkCexContent).map
      (fun c => c.content.length) = [501] ∧ 500 < 501 := by
  constructor
  · decide
  · decide

/-- Witness for C6's amended theorem, at the same two-line input: the
oversized chunk satisfies the corrected 501 bound, and the stored chunk
indices are `[0]`. -/
theorem splitIntoChunks_spec_witness :
    (∀ e ∈ (Database.empty).embeddings, ¬ e.fileId = 1) ∧
    (∀ c ∈ CodeIndexer.splitIntoChunks chunkCexContent,
      c.content.length ≤ 501 ∨
        ∃ l ∈ splitLines chunkCexContent, c.content = jsTrim l) ∧
    (DatabaseManager.getEmbeddingsByFile
        (CodeIndexer.generateFileEmbeddings (fun _ => []) Database.empty 1
          chunkCexContent (str "typescript")) 1).map
      (fun e => e.chunkIndex) =
      List.range (CodeIndexer.splitIntoChunks chunkCexContent).length :=
  ⟨fun e he => by simp [Database.empty] at he,
   (splitIntoChunks_spec chunkCexContent (fun _ => []) Database.empty 1
      (str "typescript") (fun e he => by simp [Database.empty] at he)).2.2.2.1,
   (splitIntoChunks_spec chunkCexContent (fun _ => []) Database.empty 1
      (str "typescript") (fun e he => by simp [Database.empty] at he)).2.2.2.2⟩


/-- The two reference kinds are distinct strings. -/
lemma str_definition_ne_usage : ¬ str "definition" = str "usage" := by decide

/-- C7: `getReferences` never reports a `usage` on a line lying inside a
known definition's span for that symbol name in that file — every textual
occurrence is pushed only under the guard that no matching symbol row of
that file covers its line; definitions are reported only as
`definition` entries. -/
theorem getReferences_excludes_definitions (db : Database) (name : Str)
    (fp : Option Str) (r : SearchEngine.ReferenceResult)
    (hr : r ∈ SearchEngine.getReferences db name fp)
    (hu : r.type = str "usage") :
    ∀ s ∈ DatabaseManager.findSymbolsByName db name none,
      s.fileId = r.file.id → ¬ (s.startLine ≤ r.line ∧ r.line ≤ s.endLine) := by
  simp only [SearchEngine.getReferences, List.mem_append, List.mem_flatMap,
    List.mem_range] at hr
  rcases hr with hdef | huse
  · obtain ⟨s0, hs0, hmem⟩ := hdef
    repeat' split at hmem
    all_goals
      first
        | exact absurd hmem (List.not_mem_nil r)
        | (rw [List.mem_singleton] at hmem
           rw [hmem] at hu
           exact absurd hu str_definition_ne_usage)
  · obtain ⟨file, hfile, li, hli, col, hcol, hmem⟩ := huse
    split at hmem
    · rename_i hguard
      simp only [List.mem_singleton] at hmem
      intro s hs heq hcon
      apply hguard
      rw [hmem] at heq hcon
      simp only at heq hcon
      rw [List.any_eq_true]
      refine ⟨s, hs, ?_⟩
      simp only [decide_eq_true_eq]
      exact ⟨heq, hcon.1, hcon.2⟩
    · simp at hmem


/-- Indexed file used for the reference-exclusion witness. -/
def fRefs : FileRecord :=
  ⟨1, str "f.ts", str "function add() \x7b\x7d\nadd();", str "h", 24,
   str "typescript", 0, 0⟩

/-- Store with one definition of `add` on line 1 and a call on line 2. -/
def dbRefs : Database :=
  ⟨[fRefs],
   [⟨1, 1, str "add", str "function", 1, 1, 10, 18,
     str "function add() \x7b\x7d", none, []⟩],
   [], [], 2, 2, 2, 2⟩

/-- The usage hit `getReferences` reports for the call on line 2. -/
def rUsage : SearchEngine.ReferenceResult :=
  ⟨fRefs, 2, 1, str "add();", str "usage"⟩

/-- The definition row of `add`. -/
def sAdd : SymbolRecord :=
  ⟨1, 1, str "add", str "function", 1, 1, 10, 18,
   str "function add() \x7b\x7d", none, []⟩

/-- Witness for C7: on the concrete corpus, the call-site usage at line 2
is reported and is provably outside the definition's span — while the
occurrence of `add` on the definition line itself is not reported as a
usage. -/
theorem getReferences_excludes_definitions_witness :
    rUsage ∈ SearchEngine.getReferences dbRefs (str "add") none ∧
    rUsage.type = str "usage" ∧
    sAdd ∈ DatabaseManager.findSymbolsByName dbRefs (str "add") none ∧
    sAdd.fileId = rUsage.file.id ∧
    ¬ (sAdd.startLine ≤ rUsage.line ∧ rUsage.line ≤ sAdd.endLine) :=
  ⟨by decide, by decide, by decide, by decide,
   getReferences_excludes_definitions dbRefs (str "add") none rUsage
     (by decide) (by decide) sAdd (by decide) (by decide)⟩




/-- The result loop appends to its accumulator a selection of the
candidates whose scores form a sublist of the candidate scores, in
order. -/
lemma buildResults_split (db : Database) (limit : ℕ)
    (exts : Option (List Str)) (query : Str) :
    ∀ (cands : List (EmbeddingRecord × ℚ))
      (acc : List SearchEngine.SearchResult),
      ∃ l, SearchEngine.buildResults db limit exts query cands acc = acc ++ l ∧
        (l.map (fun r => r.score)).Sublist (cands.map (fun p => p.2)) := by
  intro cands acc
  induction cands, acc using SearchEngine.buildResults.induct db limit exts query with
  | case1 acc => exact ⟨[], by simp [SearchEngine.buildResults], by simp⟩
  | case2 e score rest acc hres ih =>
    obtain ⟨l, heq, hsub⟩ := ih
    refine ⟨l, ?_, hsub.cons score⟩
    simp only [SearchEngine.buildResults, hres]
    exact heq
  | case3 e score rest acc f hres hskip ih =>
    obtain ⟨l, heq, hsub⟩ := ih
    refine ⟨l, ?_, hsub.cons score⟩
    simp only [SearchEngine.buildResults, hres, hskip, if_true]
    exact heq
  | case4 e score rest acc f hres hskip symbol snippet r acc2 hfull =>
    refine ⟨[r], ?_, ?_⟩
    · unfold acc2 at hfull
      simp only [SearchEngine.buildResults, hres, hskip, Bool.false_eq_true,
        if_false, if_pos hfull]
    · exact (List.nil_sublist _).cons₂ score
  | case5 e score rest acc f hres hskip symbol snippet r acc2 hfull ih =>
    obtain ⟨l, heq, hsub⟩ := ih
    refine ⟨r :: l, ?_, ?_⟩
    · unfold acc2 at hfull
      simp only [SearchEngine.buildResults, hres, hskip, Bool.false_eq_true,
        if_false, if_neg hfull]
      exact heq.trans (show (acc ++ [r]) ++ l = acc ++ r :: l by
        rw [List.append_assoc]; rfl)
    · exact hsub.cons₂ score

/-- The result loop never grows past `limit` when started below it (the
break fires right after the push that reaches `limit`). -/
lemma buildResults_length (db : Database) (limit : ℕ)
    (exts : Option (List Str)) (query : Str) :
    ∀ (cands : List (EmbeddingRecord × ℚ))
      (acc : List SearchEngine.SearchResult), acc.length < limit →
      (SearchEngine.buildResults db limit exts query cands acc).length ≤ limit := by
  intro cands acc
  induction cands, acc using SearchEngine.buildResults.induct db limit exts query with
  | case1 acc =>
    intro h
    simp only [SearchEngine.buildResults]
    omega
  | case2 e score rest acc hres ih =>
    intro h
    simp only [SearchEngine.buildResults, hres]
    exact ih h
  | case3 e score rest acc f hres hskip ih =>
    intro h
    simp only [SearchEngine.buildResults, hres, hskip, if_true]
    exact ih h
  | case4 e score rest acc f hres hskip symbol snippet r acc2 hfull =>
    intro h
    unfold acc2 at hfull
    simp only [SearchEngine.buildResults, hres, hskip, Bool.false_eq_true,
      if_false, if_pos hfull]
    simp only [List.length_append, List.length_singleton]
    omega
  | case5 e score rest acc f hres hskip symbol snippet r acc2 hfull ih =>
    intro h
    unfold acc2 at hfull ih
    simp only [SearchEngine.buildResults, hres, hskip, Bool.false_eq_true,
      if_false, if_neg hfull]
    apply ih
    simp only [List.length_append, List.length_singleton] at hfull ⊢
    omega

/-- Every result the loop emits scores at least the bound shared by all
candidates. -/
lemma buildResults_threshold (db : Database) (limit : ℕ)
    (exts : Option (List Str)) (query : Str) (threshold : ℚ) :
    ∀ (cands : List (EmbeddingRecord × ℚ))
      (acc : List SearchEngine.SearchResult),
      (∀ c ∈ cands, threshold ≤ c.2) → (∀ r ∈ acc, threshold ≤ r.score) →
      ∀ r ∈ SearchEngine.buildResults db limit exts query cands acc,
        threshold ≤ r.score := by
  intro cands acc
  induction cands, acc using SearchEngine.buildResults.induct db limit exts query with
  | case1 acc =>
    intro _ hacc
    simpa [SearchEngine.buildResults] using hacc
  | case2 e score rest acc hres ih =>
    intro hc hacc
    simp only [SearchEngine.buildResults, hres]
    exact ih (fun c hx => hc c (List.mem_cons_of_mem _ hx)) hacc
  | case3 e score rest acc f hres hskip ih =>
    intro hc hacc
    simp only [SearchEngine.buildResults, hres, hskip, if_true]
    exact ih (fun c hx => hc c (List.mem_cons_of_mem _ hx)) hacc
  | case4 e score rest acc f hres hskip symbol snippet r acc2 hfull =>
    intro hc hacc
    unfold acc2 at hfull
    simp only [SearchEngine.buildResults, hres, hskip, Bool.false_eq_true,
      if_false, if_pos hfull]
    intro x hx
    rcases List.mem_append.mp hx with hx | hx
    · exact hacc x hx
    · rw [List.mem_singleton] at hx
      rw [hx]
      exact hc (e, score) (List.mem_cons_self _ _)
  | case5 e score rest acc f hres hskip symbol snippet r acc2 hfull ih =>
    intro hc hacc
    unfold acc2 at hfull ih
    simp only [SearchEngine.buildResults, hres, hskip, Bool.false_eq_true,
      if_false, if_neg hfull]
    apply ih (fun c hx => hc c (List.mem_cons_of_mem _ hx))
    intro x hx
    rcases List.mem_append.mp hx with hx | hx
    · exact hacc x hx
    · rw [List.mem_singleton] at hx
      rw [hx]
      exact hc (e, score) (List.mem_cons_self _ _)

/-- C5: `searchCode` returns results in non-increasing similarity-score
order, every returned score is at least the threshold, and at most
`limit` results are returned. -/
theorem searchCode_ranking (sqrtF : ℚ → ℚ) (qe : List ℚ) (db : Database)
    (query : Str) (limit : ℕ) (exts : Option (List Str)) (threshold : ℚ) :
    ((SearchEngine.searchCode sqrtF qe db query limit exts threshold).map
      (fun r => r.score)).Pairwise (fun a b => b ≤ a) ∧
    (∀ r ∈ SearchEngine.searchCode sqrtF qe db query limit exts threshold,
      threshold ≤ r.score) ∧
    (SearchEngine.searchCode sqrtF qe db query limit exts threshold).length ≤
      limit := by
  have htot : IsTotal (EmbeddingRecord × ℚ) (fun a b => b.2 ≤ a.2) :=
    ⟨fun a b => le_total b.2 a.2⟩
  have htrans : IsTrans (EmbeddingRecord × ℚ) (fun a b => b.2 ≤ a.2) :=
    ⟨fun _ _ _ h1 h2 => le_trans h2 h1⟩
  simp only [SearchEngine.searchCode]
  set filtered := (((DatabaseManager.getAllEmbeddings db).map (fun e =>
    (e, SearchEngine.cosineSimilarity sqrtF qe e.embedding))).filter
    (fun p => threshold ≤ p.2)) with hfiltered
  set cands := ((filtered.insertionSort (fun a b => b.2 ≤ a.2)).take
    (limit * 2)) with hcands
  have hsorted : List.Pairwise (fun a b : EmbeddingRecord × ℚ => b.2 ≤ a.2)
      cands := by
    apply List.Pairwise.sublist (List.take_sublist _ _)
    exact @List.sorted_insertionSort _ _ _ htot htrans filtered
  have hthr : ∀ c ∈ cands, threshold ≤ c.2 := by
    intro c hcm
    have hmem : c ∈ filtered.insertionSort (fun a b => b.2 ≤ a.2) :=
      List.take_subset _ _ hcm
    have hmf : c ∈ filtered := (List.perm_insertionSort _ _).mem_iff.mp hmem
    have := List.of_mem_filter hmf
    simpa using this
  obtain ⟨l, heq, hsub⟩ := buildResults_split db limit exts query cands []
  rw [heq]
  simp only [List.nil_append]
  refine ⟨?_, ?_, ?_⟩
  · apply List.Pairwise.sublist hsub
    exact List.pairwise_map.mpr hsorted
  · intro r hr
    refine buildResults_threshold db limit exts query threshold cands []
      hthr (by simp) r ?_
    rw [heq]
    simpa using hr
  · rcases Nat.eq_zero_or_pos limit with h0 | hpos
    · have hc0 : cands = [] := by
        rw [hcands, h0]
        simp
      rw [hc0] at hsub
      simp only [List.map_nil] at hsub
      have := List.sublist_nil.mp hsub
      rw [List.map_eq_nil] at this
      simp [this]
    · have hlen := buildResults_length db limit exts query cands [] (by simpa)
      rw [heq] at hlen
      simpa using hlen

/-- File row of the search-ranking witness store. -/
def fSearch : FileRecord :=
  ⟨1, str "a.ts", str "hello", str "h", 5, str "typescript", 0, 0⟩

/-- Store with one embedded chunk for the search-ranking witness. -/
def dbSearch : Database :=
  ⟨[fSearch], [],
   [⟨1, 1, none, 0, str "hello", [], ⟨str "typescript", 1, 1, str "code"⟩⟩],
   [], 2, 2, 2, 2⟩

/-- The single hit `searchCode` returns on that store for an empty query
vector (zero-norm similarity 0, kept by threshold 0). -/
def rSearch : SearchEngine.SearchResult :=
  ⟨fSearch, none, 0, str "hello", 1, []⟩

/-- Witness for C5: the concrete search returns the hit, whose score
satisfies the threshold bound given by the theorem. -/
theorem searchCode_ranking_witness :
    rSearch ∈ SearchEngine.searchCode id [] dbSearch (str "q") 10 none 0 ∧
    (0 : ℚ) ≤ rSearch.score :=
  ⟨by decide,
   (searchCode_ranking id [] dbSearch (str "q") 10 none 0).2.1 rSearch
     (by decide)⟩


/-- C3 (amended): re-scanning an already-indexed file without `force`,
with content, fingerprint and modification time unchanged, performs no
store writes — provided the scan's process working directory equals the
repository root.  (`shouldProcessFile` resolves the stored row under a
path relative to `process.cwd()`, while `indexFile` stored it relative to
the scan root, so the skip works only when the two bases agree.) -/
theorem scanStep_skips_unchanged (embedF : Str → List ℚ) (hashF : Str → Str)
    (now : ℤ) (cwd repoPath fileAbs : FsPath) (content : Str) (size : ℕ)
    (mtime : ℤ) (db : Database) (f : FileRecord)
    (hcwd : cwd = repoPath)
    (hget : DatabaseManager.getFile db (pathRelative repoPath fileAbs) = some f)
    (hmt : mtime ≤ f.lastModified) :
    CodeIndexer.scanStep embedF hashF now cwd repoPath fileAbs content size
      mtime false db = db := by
  subst hcwd
  have hskip : CodeIndexer.shouldProcessFile cwd db fileAbs size mtime
      false = false := by
    unfold CodeIndexer.shouldProcessFile
    by_cases hs : 1048576 < size
    · simp [hs]
    · simp [hs, hget, hmt]
  unfold CodeIndexer.scanStep
  rw [hskip]
  simp

/-- The all-empty embedding provider (stands for `embedF` in concrete
runs; the claims proved with it do not depend on vector values). -/
def embedZero : Str → List ℚ := fun _ => []

/-- A constant content fingerprint for concrete runs. -/
def hashH : Str → Str := fun _ => str "h"

/-- Store holding `a.js` as indexed from `/repo` (mtime 5, indexed at 1). -/
def dbScan : Database :=
  ⟨[⟨1, str "a.js", str "x", str "h", 1, str "javascript", 5, 1⟩],
   [], [], [], 2, 2, 2, 2⟩

/-- Witness for C3's amended theorem: with the working directory equal to
the repository root, re-scanning the unchanged `a.js` leaves the store
untouched. -/
theorem scanStep_skips_unchanged_witness :
    DatabaseManager.getFile dbScan
        (pathRelative [str "repo"] [str "repo", str "a.js"]) =
      some ⟨1, str "a.js", str "x", str "h", 1, str "javascript", 5, 1⟩ ∧
    (5 : ℤ) ≤ 5 ∧
    CodeIndexer.scanStep embedZero hashH 99 [str "repo"] [str "repo"]
      [str "repo", str "a.js"] (str "x") 1 5 false dbScan = dbScan :=
  ⟨by decide, by decide,
   scanStep_skips_unchanged embedZero hashH 99 [str "repo"] [str "repo"]
     [str "repo", str "a.js"] (str "x") 1 5 dbScan
     ⟨1, str "a.js", str "x", str "h", 1, str "javascript", 5, 1⟩
     rfl (by decide) (by decide)⟩

/-- C3 counterexample: the claim as stated fails when the process working
directory differs from the repository root — the skip lookup misses (it
uses `../repo/a.js` while the row is stored as `a.js`), the unchanged
file is re-processed, and the File row is rewritten: `indexed_at` jumps
from 1 to the new timestamp 99 although content, hash and mtime are all
unchanged. -/
theorem scanStep_rewrites_when_cwd_differs :
    (DatabaseManager.getFile dbScan (str "a.js")).map (fun f => f.indexedAt) =
      some 1 ∧
    (DatabaseManager.getFile
        (CodeIndexer.scanStep embedZero hashH 99 [str "w"] [str "repo"]
          [str "repo", str "a.js"] (str "x") 1 5 false dbScan)
        (str "a.js")).map (fun f => f.indexedAt) = some 99 := by
  decide


/-- `insertFile` leaves the dependencies table untouched. -/
lemma insertFile_fst_dependencies (db : Database) (now : ℤ)
    (f : DatabaseManager.FileInput) :
    ((DatabaseManager.insertFile db now f).1).dependencies = db.dependencies := by
  unfold DatabaseManager.insertFile
  cases DatabaseManager.getFile db f.path <;> rfl

/-- Every path in the store after an `insertFile` is either the inserted
path or one already present. -/
lemma insertFile_fst_paths (db : Database) (now : ℤ)
    (f : DatabaseManager.FileInput) :
    ∀ g ∈ ((DatabaseManager.insertFile db now f).1).files,
      g.path = f.path ∨ ∃ h ∈ db.files, g.path = h.path := by
  unfold DatabaseManager.insertFile
  cases DatabaseManager.getFile db f.path with
  | none =>
    intro g hg
    simp only [List.mem_append, List.mem_singleton] at hg
    rcases hg with hg | hg
    · exact Or.inr ⟨g, hg, rfl⟩
    · rw [hg]
      exact Or.inl rfl
  | some old =>
    intro g hg
    simp only [List.mem_map] at hg
    obtain ⟨h0, hh0, hg⟩ := hg
    by_cases hp : h0.path = f.path
    · rw [← hg]
      simp [hp]
    · rw [← hg]
      simp only [hp, if_false]
      exact Or.inr ⟨h0, hh0, rfl⟩

/-- The symbol-insertion fold of `indexFile` touches neither the files
nor the dependencies table. -/
lemma symFold_pass (fileId : ℕ) :
    ∀ (syms : List LanguageParser.ParsedSymbol) (db : Database),
      ((syms.foldl (fun d s =>
          (DatabaseManager.insertSymbol d ⟨fileId, s.name, s.type, s.startLine,
            s.endLine, s.startColumn, s.endColumn, s.definition, s.docstring,
            s.modifiers⟩).1) db).files =
        db.files ∧
      (syms.foldl (fun d s =>
          (DatabaseManager.insertSymbol d ⟨fileId, s.name, s.type, s.startLine,
            s.endLine, s.startColumn, s.endColumn, s.definition, s.docstring,
            s.modifiers⟩).1) db).dependencies =
        db.dependencies) := by
  intro syms
  induction syms with
  | nil => intro db; exact ⟨rfl, rfl⟩
  | cons s t ih =>
    intro db
    simp only [List.foldl_cons]
    exact ih _

/-- The embedding-insertion fold touches neither the files nor the
dependencies table. -/
lemma embFold_pass (embedF : Str → List ℚ) (fileId : ℕ) (language : Str) :
    ∀ (l : List (ℕ × CodeIndexer.Chunk)) (db : Database),
      ((l.foldl (fun d ic =>
          (DatabaseManager.insertEmbedding d
            ⟨fileId, ic.2.symbolId, ic.1, ic.2.content, embedF ic.2.content,
             ⟨language, ic.2.startLine, ic.2.endLine, ic.2.type⟩⟩).1) db).files =
        db.files ∧
      (l.foldl (fun d ic =>
          (DatabaseManager.insertEmbedding d
            ⟨fileId, ic.2.symbolId, ic.1, ic.2.content, embedF ic.2.content,
             ⟨language, ic.2.startLine, ic.2.endLine, ic.2.type⟩⟩).1) db).dependencies =
        db.dependencies) := by
  intro l
  induction l with
  | nil => intro db; exact ⟨rfl, rfl⟩
  | cons ic t ih =>
    intro db
    simp only [List.foldl_cons]
    exact ih _

/-- `generateFileEmbeddings` touches neither the files nor the
dependencies table. -/
lemma genEmb_pass (embedF : Str → List ℚ) (db : Database) (fileId : ℕ)
    (content language : Str) :
    (CodeIndexer.generateFileEmbeddings embedF db fileId content language).files =
      db.files ∧
    (CodeIndexer.generateFileEmbeddings embedF db fileId content
      language).dependencies = db.dependencies := by
  unfold CodeIndexer.generateFileEmbeddings
  exact embFold_pass embedF fileId language _ db

/-- A dependency parsed from a written path that starts with a dot is
never marked external. -/
lemma parseJS_dep_relative_not_external (c : Str)
    (dep : LanguageParser.ParsedDependency)
    (hmem : dep ∈ LanguageParser.parseJavaScriptDependencies c)
    (hrel : dep.importPath.head? = some '.') :
    dep.isExternal = false := by
  simp only [LanguageParser.parseJavaScriptDependencies, List.mem_flatMap] at hmem
  obtain ⟨line, _, hmem⟩ := hmem
  rcases List.mem_append.mp hmem with h | h
  · unfold LanguageParser.jsImportOfLine at h
    split at h
    · rw [List.mem_singleton] at h
      subst h
      simp only at hrel ⊢
      simp [hrel]
    · simp at h
  · unfold LanguageParser.jsRequireOfLine at h
    split at h
    · rw [List.mem_singleton] at h
      subst h
      simp only at hrel ⊢
      simp [hrel]
    · simp at h


/-- Inserting one dependency whose import path resolves to no stored file
leaves exactly that row, with a null target, for the source file. -/
lemma depInsert_getDeps (db5 : Database) (fid : ℕ)
    (dep : LanguageParser.ParsedDependency) (embedF : Str → List ℚ)
    (contentB language : Str)
    (hnone : DatabaseManager.getFile db5 dep.importPath = none)
    (hclean : ∀ r ∈ db5.dependencies, ¬ r.sourceFileId = fid)
    (hext : dep.isExternal = false) :
    ∃ row : DependencyRecord,
      DatabaseManager.getDependenciesByFile
        (CodeIndexer.generateFileEmbeddings embedF
          ((DatabaseManager.insertDependency db5
            ⟨fid, (DatabaseManager.getFile db5 dep.importPath).map
              (fun f => f.id), dep.importPath, dep.importType,
              dep.isExternal, dep.symbols⟩).1)
          fid contentB language) fid = [row] ∧
      row.sourceFileId = fid ∧ row.isExternal = false ∧
      row.targetFileId = none ∧ row.importPath = dep.importPath := by
  refine ⟨⟨db5.nextDependencyId, fid, none, dep.importPath, dep.importType,
    dep.isExternal, dep.symbols⟩, ?_, rfl, hext, rfl, rfl⟩
  unfold DatabaseManager.getDependenciesByFile
  rw [(genEmb_pass embedF _ fid contentB language).2]
  simp only [DatabaseManager.insertDependency, hnone, Option.map_none']
  rw [List.filter_append]
  have h1 : db5.dependencies.filter (fun d => d.sourceFileId = fid) = [] := by
    rw [List.filter_eq_nil_iff]
    intro r hr
    simpa using hclean r hr
  rw [h1]
  simp

/-- C2 (amended): indexing B after A yields exactly one Dependency row
with source B and `isExternal = false`, but its `targetFileId` is null,
not A's id: resolution looks the literal written path (starting with
`./` or `../`) up against stored repository-relative paths, which never
start with a dot, so a relative import can never match. -/
theorem indexFile_relative_import_null_target
    (embedF : Str → List ℚ) (hashF : Str → Str) (now : ℤ) (db : Database)
    (repoPath fileB : FsPath) (contentB : Str) (size : ℕ) (mtime : ℤ)
    (d : LanguageParser.ParsedDependency) (fid : ℕ)
    (hlang : LanguageParser.detectLanguage (pathToStr fileB) = str "javascript")
    (hdeps : LanguageParser.parseJavaScriptDependencies contentB = [d])
    (hrel : d.importPath.head? = some '.')
    (hpaths : ∀ f ∈ db.files, ¬ f.path.head? = some '.')
    (hbrel : ¬ (pathRelative repoPath fileB).head? = some '.')
    (hfid : fid = (DatabaseManager.insertFile db now
      ⟨pathRelative repoPath fileB, contentB, hashF contentB, size,
       LanguageParser.detectLanguage (pathToStr fileB), mtime⟩).2) :
    ∃ row : DependencyRecord,
      DatabaseManager.getDependenciesByFile
        (CodeIndexer.indexFile embedF hashF now db repoPath fileB contentB
          size mtime) fid = [row] ∧
      row.sourceFileId = fid ∧ row.isExternal = false ∧
      row.targetFileId = none ∧ row.importPath = d.importPath := by
  have hdnotext : d.isExternal = false :=
    parseJS_dep_relative_not_external contentB d
      (by rw [hdeps]; exact List.mem_singleton.mpr rfl) hrel
  rw [hlang] at hfid
  simp only [CodeIndexer.indexFile]
  rw [hlang]
  rw [← hfid]
  have hsup : LanguageParser.isSupported (str "javascript") = true := by decide
  simp only [hsup, eq_self_iff_true, if_true]
  have hpd : LanguageParser.parseDependencies (some contentB)
      (str "javascript") (pathRelative repoPath fileB) = some [d] := by
    simp [LanguageParser.parseDependencies, hdeps]
  rw [hpd]
  rw [Option.getD_some]
  simp only [List.foldl_cons, List.foldl_nil]
  apply depInsert_getDeps
  · -- the written import path matches no stored repository-relative path
    unfold DatabaseManager.getFile
    rw [(symFold_pass fid _ _).1]
    simp only [DatabaseManager.clearEmbeddingsByFile,
      DatabaseManager.clearDependenciesByFile,
      DatabaseManager.clearSymbolsByFile]
    rw [List.find?_eq_none]
    intro g hg
    have := insertFile_fst_paths db now _ g hg
    simp only [decide_eq_true_eq]
    intro hgp
    rcases this with hcase | ⟨h0, hh0, hcase⟩
    · rw [hgp] at hcase
      have hcase2 : d.importPath = pathRelative repoPath fileB := hcase
      apply hbrel
      rw [← hcase2]
      exact hrel
    · apply hpaths h0 hh0
      rw [← hcase, hgp]
      exact hrel
  · -- previously stored dependencies never carry the fresh source id
    rw [(symFold_pass fid _ _).2]
    simp only [DatabaseManager.clearEmbeddingsByFile,
      DatabaseManager.clearDependenciesByFile,
      DatabaseManager.clearSymbolsByFile]
    intro r hr
    have := List.of_mem_filter hr
    simpa using this
  · exact hdnotext

/-- The two-file repository of Scenario A: `A.js` exporting `a`, `B.js`
importing it by the relative path `./A.js`. -/
def repoRoot : FsPath := [str "repo"]

/-- Absolute path of file A. -/
def fileAPath : FsPath := [str "repo", str "A.js"]

/-- Absolute path of file B. -/
def fileBPath : FsPath := [str "repo", str "B.js"]

/-- Content of file A. -/
def contentA : Str := str "export const a = 1;"

/-- Content of file B: a named relative import of A. -/
def contentB : Str := str "import \x7b a \x7d from \"./A.js\";"

/-- Store after indexing A into the empty store. -/
def dbAfterA : Database :=
  CodeIndexer.indexFile embedZero hashH 10 Database.empty repoRoot fileAPath
    contentA 19 5

/-- Store after then indexing B. -/
def dbAfterB : Database :=
  CodeIndexer.indexFile embedZero hashH 11 dbAfterA repoRoot fileBPath
    contentB 27 6

/-- C2 counterexample: indexing the two-file repository (A before B)
leaves exactly one Dependency row on B with `isExternal = false`, but its
`targetFileId` is null although A is indexed with id 1 — the claim's
`targetFileId = A's id` fails because the lookup uses the literal written
path `./A.js`, which never equals A's stored relative path `A.js`. -/
theorem two_file_repo_target_unresolved :
    (DatabaseManager.getFile dbAfterA (str "A.js")).map (fun f => f.id) =
      some 1 ∧
    (DatabaseManager.getFile dbAfterB (str "B.js")).map (fun f => f.id) =
      some 2 ∧
    (DatabaseManager.getDependenciesByFile dbAfterB 2).map
      (fun d => (d.importPath, d.isExternal, d.targetFileId)) =
      [(str "./A.js", false, none)] := by
  decide

/-- Witness for C2's amended theorem, at the Scenario A repository. -/
theorem indexFile_relative_import_null_target_witness :
    ∃ row : DependencyRecord,
      DatabaseManager.getDependenciesByFile
        (CodeIndexer.indexFile embedZero hashH 11 dbAfterA repoRoot fileBPath
          contentB 27 6) 2 = [row] ∧
      row.sourceFileId = 2 ∧ row.isExternal = false ∧
      row.targetFileId = none ∧
      row.importPath = str "./A.js" :=
  indexFile_relative_import_null_target embedZero hashH 11 dbAfterA repoRoot
    fileBPath contentB 27 6
    ⟨str "./A.js", str "import", false, [str "a"]⟩ 2
    (by decide) (by decide) (by decide) (by decide) (by decide) (by decide)

